import Mathlib

/-!
Shallow embedding of `checktsh.py`, the shell-lab autograder: the four
regex-based output-normalization rules, the per-case grading logic and the
suite loop, together with proofs of the specification claims.

Texts are modelled as `List Char`.  Each `re.sub` call of the source is
embedded as a recursive scanner that reproduces the Python `re` engine's
leftmost scan with greedy/lazy backtracking for that concrete pattern
(`.` never matches a newline; `\s` does match a newline); the embeddings
were cross-checked against CPython's `re` on a corpus of inputs.
-/

namespace Checktsh

/-- Python `\s` on ASCII text: space, tab, newline, carriage return,
vertical tab, form feed. -/
def isWS (c : Char) : Bool :=
  c = ' ' || c = '\t' || c = '\n' || c = '\r' || c = '\x0b' || c = '\x0c'

/-- Python `\w` on ASCII text: letters, digits, underscore. -/
def isWordChar (c : Char) : Bool :=
  c.isAlpha || c.isDigit || c = '_'

/-- The literal replacement token of the first rule. -/
def pidTok : List Char := ['(', 'P', 'I', 'D', ')']

/-- Scan for the first `)` reachable without crossing a newline, returning
the text after it.  This is where a lazy `.*?` (which cannot match `\n`)
followed by `)` ends its match. -/
def findClose : List Char → Option (List Char)
  | [] => none
  | c :: t => if c = ')' then some t else if c = '\n' then none else findClose t

theorem findClose_length : ∀ {t after : List Char},
    findClose t = some after → after.length < t.length := by
  intro t
  induction t with
  | nil => intro after h; simp [findClose] at h
  | cons c t ih =>
    intro after h
    rw [findClose] at h
    by_cases hc : c = ')'
    · rw [if_pos hc] at h
      cases h
      exact Nat.lt_succ_self _
    · rw [if_neg hc] at h
      by_cases hn : c = '\n'
      · rw [if_pos hn] at h; cases h
      · rw [if_neg hn] at h
        exact Nat.lt_succ_of_lt (ih h)

/-- Rule 1, `re.sub("[\(].*?[\)]", "(PID)", s)`: replace each `(`…`)` pair,
lazily matched and never spanning a newline, with the token `(PID)`. -/
def pidSub : List Char → List Char
  | [] => []
  | c :: t =>
    if c = '(' then
      match h : findClose t with
      | some after => pidTok ++ pidSub after
      | none => c :: pidSub t
    else c :: pidSub t
termination_by l => l.length
decreasing_by
  · exact Nat.lt_succ_of_lt (findClose_length h)
  · simp
  · simp

@[simp] theorem pidSub_nil : pidSub [] = [] := by rw [pidSub]

theorem pidSub_cons_ne {c : Char} (t : List Char) (hc : c ≠ '(') :
    pidSub (c :: t) = c :: pidSub t := by
  rw [pidSub]
  simp [hc]

theorem pidSub_open_some {t after : List Char} (h : findClose t = some after) :
    pidSub ('(' :: t) = pidTok ++ pidSub after := by
  rw [pidSub]
  split
  · split
    · rename_i a heq
      rw [h] at heq
      cases heq
      rfl
    · rename_i heq
      rw [h] at heq
      cases heq
  · rename_i hcond
    exact absurd rfl hcond

theorem pidSub_open_none {t : List Char} (h : findClose t = none) :
    pidSub ('(' :: t) = '(' :: pidSub t := by
  rw [pidSub]
  split
  · split
    · rename_i a heq
      rw [h] at heq
      cases heq
    · rfl
  · rename_i hcond
    exact absurd rfl hcond

/-- The suffix of a list from its last newline on (the whole list when it
has no newline). -/
def fromLastNL : List Char → List Char
  | [] => []
  | c :: t => if '\n' ∈ t then fromLastNL t else c :: t

/-- What survives of a maximal whitespace run that is not at the end of the
text under rule 2: the run from its last newline on (the greedy `\s+`
followed by `$` eats exactly the part before the last newline), or the
whole run when it contains no newline (then `\s+$` cannot match in it). -/
def keepRun (run : List Char) : List Char :=
  if '\n' ∈ run then fromLastNL run else run

/-- Rule 2, `re.sub(r'\s+$', '', s, flags=re.M)`: a maximal whitespace run
ending the text is deleted whole; every other maximal whitespace run is cut
down to `keepRun` of it.  In multiline mode `$` matches before any newline
and at the end of the text, and `\s` itself matches newlines, so the rule
also collapses blank lines. -/
def stripWS : List Char → List Char
  | [] => []
  | c :: t =>
    if isWS c then
      (if (c :: t).dropWhile isWS = [] then []
       else keepRun ((c :: t).takeWhile isWS)) ++ stripWS ((c :: t).dropWhile isWS)
    else c :: stripWS t
termination_by l => l.length
decreasing_by
  · rename_i hws
    simp only [List.dropWhile_cons, hws, if_true, List.length_cons]
    exact Nat.lt_succ_of_le (List.dropWhile_suffix isWS).sublist.length_le
  · simp

@[simp] theorem stripWS_nil : stripWS [] = [] := by rw [stripWS]

theorem stripWS_cons_nonws {c : Char} (t : List Char) (hc : isWS c = false) :
    stripWS (c :: t) = c :: stripWS t := by
  rw [stripWS]
  simp [hc]

theorem takeWhile_all_append {α : Type} {p : α → Bool} {u : List α} (v : List α)
    (hu : ∀ x ∈ u, p x) : (u ++ v).takeWhile p = u ++ v.takeWhile p := by
  induction u with
  | nil => simp
  | cons a u ih =>
    have ha : p a := hu a (by simp)
    simp only [List.cons_append, List.takeWhile_cons, ha, if_true]
    rw [ih (fun x hx => hu x (by simp [hx]))]

theorem dropWhile_all_append {α : Type} {p : α → Bool} {u : List α} (v : List α)
    (hu : ∀ x ∈ u, p x) : (u ++ v).dropWhile p = v.dropWhile p := by
  induction u with
  | nil => simp
  | cons a u ih =>
    have ha : p a := hu a (by simp)
    simp only [List.cons_append, List.dropWhile_cons, ha, if_true]
    exact ih (fun x hx => hu x (by simp [hx]))

theorem takeWhile_head_false {α : Type} {p : α → Bool} {c : α} (t : List α)
    (hc : p c = false) : (c :: t).takeWhile p = [] := by
  simp [List.takeWhile_cons, hc]

theorem dropWhile_head_false {α : Type} {p : α → Bool} {c : α} (t : List α)
    (hc : p c = false) : (c :: t).dropWhile p = c :: t := by
  simp [List.dropWhile_cons, hc]

/-- Head shape of a list whose `dropWhile` residue is nonempty: the residue
starts with an element not satisfying `p`. -/
theorem dropWhile_head {α : Type} {p : α → Bool} :
    ∀ {l : List α} {d : α} {r : List α}, l.dropWhile p = d :: r → p d = false := by
  intro l
  induction l with
  | nil => intro d r h; simp at h
  | cons a t ih =>
    intro d r h
    rw [List.dropWhile_cons] at h
    by_cases ha : p a
    · rw [if_pos ha] at h
      exact ih h
    · rw [if_neg ha] at h
      cases h
      exact Bool.of_not_eq_true ha

/-- Unfolding of `stripWS` at a maximal whitespace run: `run` is nonempty
all-whitespace and `rest` is empty or starts with a non-whitespace
character. -/
theorem stripWS_run {run rest : List Char} (hne : run ≠ [])
    (hws : ∀ x ∈ run, isWS x) (hrest : rest = [] ∨ ∃ d r, rest = d :: r ∧ isWS d = false) :
    stripWS (run ++ rest) =
      (if rest = [] then [] else keepRun run) ++ stripWS rest := by
  have htake : (run ++ rest).takeWhile isWS = run := by
    rw [takeWhile_all_append rest hws]
    rcases hrest with h | ⟨d, r, hdr, hd⟩
    · simp [h]
    · rw [hdr, takeWhile_head_false r hd, List.append_nil]
  have hdrop : (run ++ rest).dropWhile isWS = rest := by
    rw [dropWhile_all_append rest hws]
    rcases hrest with h | ⟨d, r, hdr, hd⟩
    · simp [h]
    · rw [hdr, dropWhile_head_false r hd]
  rcases run with _ | ⟨c, run'⟩
  · exact absurd rfl hne
  · have hc : isWS c := hws c (by simp)
    rw [List.cons_append, stripWS]
    rw [if_pos hc]
    rw [← List.cons_append, htake, hdrop]

def isDot (c : Char) : Bool := c = '.'

def notNL (c : Char) : Bool := !(c = '\n')

/-- Split a list around its last newline: `some (w1, w2)` means the list is
`w1 ++ '\n' :: w2` with no newline in `w2`. -/
def lastNLSplit : List Char → Option (List Char × List Char)
  | [] => none
  | c :: t =>
    match lastNLSplit t with
    | some p => some (c :: p.1, p.2)
    | none => if c = '\n' then some ([], t) else none

theorem lastNLSplit_none : ∀ {w : List Char}, lastNLSplit w = none → '\n' ∉ w := by
  intro w
  induction w with
  | nil => intro _ h; simp at h
  | cons c t ih =>
    intro h
    rw [lastNLSplit] at h
    rcases ht : lastNLSplit t with _ | p
    · rw [ht] at h
      by_cases hc : c = '\n'
      · rw [if_pos hc] at h; cases h
      · intro hmem
        rcases List.mem_cons.mp hmem with h1 | h1
        · exact hc h1.symm
        · exact ih ht h1
    · rw [ht] at h; cases h

theorem lastNLSplit_eq : ∀ {w w1 w2 : List Char}, lastNLSplit w = some (w1, w2) →
    w = w1 ++ '\n' :: w2 ∧ '\n' ∉ w2 := by
  intro w
  induction w with
  | nil => intro w1 w2 h; simp [lastNLSplit] at h
  | cons c t ih =>
    intro w1 w2 h
    rw [lastNLSplit] at h
    rcases ht : lastNLSplit t with _ | ⟨a, b⟩
    · rw [ht] at h
      by_cases hc : c = '\n'
      · rw [if_pos hc] at h
        cases h
        exact ⟨by rw [hc]; rfl, lastNLSplit_none ht⟩
      · rw [if_neg hc] at h; cases h
    · rw [ht] at h
      cases h
      obtain ⟨h1, h2⟩ := ih ht
      exact ⟨by rw [List.cons_append, ← h1], h2⟩

/-- One attempt of rule 4's pattern `\.*\s*$` (multiline) at the head of
`l`: greedily take the run of periods, then the longest whitespace prefix
that ends right before a newline or at the end of the text.  `some rest`
returns the text after the (nonempty) match; `none` means no nonempty match
starts here (an empty match replaced by the empty string is a no-op). -/
def matchPd (l : List Char) : Option (List Char) :=
  let per := l.takeWhile isDot
  let l2 := l.dropWhile isDot
  let w := l2.takeWhile isWS
  let l3 := l2.dropWhile isWS
  if l3 = [] then (if per = [] ∧ w = [] then none else some [])
  else
    match lastNLSplit w with
    | some p => if per = [] ∧ p.1 = [] then none else some ('\n' :: (p.2 ++ l3))
    | none => none

theorem matchPd_length : ∀ {l rest : List Char}, matchPd l = some rest →
    l ≠ [] → rest.length < l.length := by
  intro l rest h hne
  have hsplit : l.takeWhile isDot ++ (l.dropWhile isDot).takeWhile isWS ++
      (l.dropWhile isDot).dropWhile isWS = l := by
    rw [List.append_assoc, List.takeWhile_append_dropWhile, List.takeWhile_append_dropWhile]
  rw [matchPd] at h
  by_cases h3 : (l.dropWhile isDot).dropWhile isWS = []
  · rw [if_pos h3] at h
    by_cases hpw : l.takeWhile isDot = [] ∧ (l.dropWhile isDot).takeWhile isWS = []
    · rw [if_pos hpw] at h; cases h
    · rw [if_neg hpw] at h
      cases h
      simpa using List.length_pos.mpr hne
  · rw [if_neg h3] at h
    rcases hnl : lastNLSplit ((l.dropWhile isDot).takeWhile isWS) with _ | ⟨w1, w2⟩
    · rw [hnl] at h; cases h
    · rw [hnl] at h
      dsimp only at h
      by_cases hpw : l.takeWhile isDot = [] ∧ w1 = []
      · rw [if_pos hpw] at h; cases h
      · rw [if_neg hpw] at h
        cases h
        obtain ⟨hw, _⟩ := lastNLSplit_eq hnl
        have : (l.takeWhile isDot).length + (w1.length + (1 + (w2.length +
            ((l.dropWhile isDot).dropWhile isWS).length))) = l.length := by
          have := congrArg List.length hsplit
          simp only [List.length_append, hw, List.length_cons] at this
          omega
        have hpos : 0 < (l.takeWhile isDot).length + w1.length := by
          rcases List.eq_nil_or_concat (l.takeWhile isDot) with hp | ⟨a, b, hab⟩
          · rcases List.eq_nil_or_concat w1 with hq | ⟨a, b, hab⟩
            · exact absurd ⟨hp, hq⟩ hpw
            · simp [hab]
          · simp [hab]
        simp only [List.length_cons, List.length_append]
        omega

/-- Rule 4, `re.sub("\.*\s*$", "", s, flags=re.M)`: remove every nonempty
leftmost match of periods-then-whitespace ending at a line end (before a
newline or at the end of the text). -/
def periodStrip : List Char → List Char
  | [] => []
  | c :: t =>
    match h : matchPd (c :: t) with
    | some rest => periodStrip rest
    | none => c :: periodStrip t
termination_by l => l.length
decreasing_by
  · exact matchPd_length h (by simp)
  · simp

@[simp] theorem periodStrip_nil : periodStrip [] = [] := by rw [periodStrip]

theorem periodStrip_cons_match {c : Char} {t rest : List Char}
    (h : matchPd (c :: t) = some rest) :
    periodStrip (c :: t) = periodStrip rest := by
  rw [periodStrip]
  split
  · rename_i a heq
    rw [h] at heq
    cases heq
    rfl
  · rename_i heq
    rw [h] at heq
    cases heq

theorem periodStrip_cons_none {c : Char} {t : List Char}
    (h : matchPd (c :: t) = none) :
    periodStrip (c :: t) = c :: periodStrip t := by
  rw [periodStrip]
  split
  · rename_i a heq
    rw [h] at heq
    cases heq
  · rfl

/-- Greedy `+`-quantifier whose continuation can never match a character of
its own run (digits followed by `\s`, whitespace followed by `\d` or `\w`):
it deterministically consumes the whole nonempty maximal run. -/
def plusRun (p : Char → Bool) (l : List Char) : Option (List Char) :=
  if l.takeWhile p = [] then none else some (l.dropWhile p)

/-- Greedy backtracking for a `+`-quantifier: try to consume `k, k-1, …, 1`
characters of `t` (longest first) and continue with `cont` on the
remainder; the result is the total number of characters consumed from `t`
by the quantifier and its continuation. -/
def tryFrom (t : List Char) (cont : List Char → Option Nat) : Nat → Option Nat
  | 0 => none
  | Nat.succ k =>
    match cont (t.drop (k + 1)) with
    | some m => some (k + 1 + m)
    | none => tryFrom t cont k

/-- The final `.*` of rule 3's second group: greedily match to the end of
the current line. -/
def contC (l : List Char) : Option Nat := some (l.takeWhile notNL).length

/-- `\w.\s+.*`, the tail of rule 3's second group after its inner `\s+`. -/
def contB (l : List Char) : Option Nat :=
  match l with
  | c2 :: c3 :: l3 =>
    if isWordChar c2 && notNL c3 then
      (tryFrom l3 contC (l3.takeWhile isWS).length).map (· + 2)
    else none
  | _ => none

/-- `\s+\w.\s+.*`, the tail of rule 3's second group after its leading
`\w.+`; the `\s+` may consume newlines. -/
def contA (l : List Char) : Option Nat :=
  tryFrom l contB (l.takeWhile isWS).length

/-- Rule 3's second capture group `(\w.+\s+\w.\s+.*)`: on success, the
number of characters it consumes. -/
def matchG2 : List Char → Option Nat
  | [] => none
  | c :: t =>
    if isWordChar c then (tryFrom t contA (t.takeWhile notNL).length).map (· + 1)
    else none

/-- One attempt of rule 3's pattern `(.\d+\s+\d+)\s+(\w.+\s+\w.\s+.*)` at
the head of `l`: one non-newline character, a digit run, a whitespace run,
a digit run, a whitespace run (each nonempty and, by backtracking
exhaustion, maximal), then the second group.  On success, returns the text
captured by the second group and the text after the whole match. -/
def matchPS : List Char → Option (List Char × List Char)
  | [] => none
  | c0 :: l1 =>
    if c0 = '\n' then none
    else
      match plusRun Char.isDigit l1 with
      | none => none
      | some l2 =>
        match plusRun isWS l2 with
        | none => none
        | some l3 =>
          match plusRun Char.isDigit l3 with
          | none => none
          | some l4 =>
            match plusRun isWS l4 with
            | none => none
            | some l5 =>
              match matchG2 l5 with
              | some n => some (l5.take n, l5.drop n)
              | none => none

theorem plusRun_length {p : Char → Bool} {l l' : List Char}
    (h : plusRun p l = some l') : l'.length ≤ l.length := by
  rw [plusRun] at h
  by_cases ht : l.takeWhile p = []
  · rw [if_pos ht] at h; cases h
  · rw [if_neg ht] at h
    cases h
    exact (List.dropWhile_suffix p).sublist.length_le

theorem matchPS_length : ∀ {l : List Char} {q : List Char × List Char},
    matchPS l = some q → q.2.length < l.length := by
  intro l q h
  rcases l with _ | ⟨c0, l1⟩
  · rw [matchPS] at h; cases h
  · rw [matchPS] at h
    by_cases hc0 : c0 = '\n'
    · rw [if_pos hc0] at h; cases h
    · rw [if_neg hc0] at h
      rcases h2 : plusRun Char.isDigit l1 with _ | l2
      · rw [h2] at h; cases h
      rw [h2] at h
      dsimp only at h
      rcases h3 : plusRun isWS l2 with _ | l3
      · rw [h3] at h; cases h
      rw [h3] at h
      dsimp only at h
      rcases h4 : plusRun Char.isDigit l3 with _ | l4
      · rw [h4] at h; cases h
      rw [h4] at h
      dsimp only at h
      rcases h5 : plusRun isWS l4 with _ | l5
      · rw [h5] at h; cases h
      rw [h5] at h
      dsimp only at h
      rcases h6 : matchG2 l5 with _ | n
      · rw [h6] at h; cases h
      · rw [h6] at h
        cases h
        have e2 := plusRun_length h2
        have e3 := plusRun_length h3
        have e4 := plusRun_length h4
        have e5 := plusRun_length h5
        have e6 : (l5.drop n).length ≤ l5.length := by
          rw [List.length_drop]; omega
        simp only [List.length_cons]
        omega

/-- The fixed part `" PID PID "` of rule 3's replacement `" PID PID \2 "`. -/
def psPre : List Char := [' ', 'P', 'I', 'D', ' ', 'P', 'I', 'D', ' ']

/-- Rule 3, `re.sub("(.\d+\s+\d+)\s+(\w.+\s+\w.\s+.*)", r" PID PID \2 ",
s, flags=re.M)`: every leftmost match is replaced by `" PID PID "`, the
text captured by the second group, and one trailing space. -/
def psSub : List Char → List Char
  | [] => []
  | c :: t =>
    match h : matchPS (c :: t) with
    | some q => (psPre ++ q.1 ++ [' ']) ++ psSub q.2
    | none => c :: psSub t
termination_by l => l.length
decreasing_by
  · exact matchPS_length h
  · simp

@[simp] theorem psSub_nil : psSub [] = [] := by rw [psSub]

theorem psSub_cons_match {c : Char} {t : List Char} {q : List Char × List Char}
    (h : matchPS (c :: t) = some q) :
    psSub (c :: t) = (psPre ++ q.1 ++ [' ']) ++ psSub q.2 := by
  rw [psSub]
  split
  · rename_i a heq
    rw [h] at heq
    cases heq
    rfl
  · rename_i heq
    rw [h] at heq
    cases heq

theorem psSub_cons_none {c : Char} {t : List Char}
    (h : matchPS (c :: t) = none) :
    psSub (c :: t) = c :: psSub t := by
  rw [psSub]
  split
  · rename_i a heq
    rw [h] at heq
    cases heq
  · rfl

/-- `str.lower()` on the ASCII driver output. -/
def toLowerStr (l : List Char) : List Char := l.map Char.toLower

/-- `splitlines(keepends=True)` restricted to `\n` line boundaries (the
driver output in this suite is newline-separated ASCII text). -/
def splitKE : List Char → List (List Char)
  | [] => []
  | c :: t =>
    if c = '\n' then ['\n'] :: splitKE t
    else
      match splitKE t with
      | [] => [[c]]
      | line :: rest => (c :: line) :: rest

/-- The per-test normalization pipeline of the grading loop: rule 1 then
rule 2 on the decoded output, then additionally rule 3 for the
process-listing tests trace12–trace14, or rule 4 for the prompt-termination
tests trace15–trace16 (the two conditions of the source are mutually
exclusive and applied in sequence). -/
def normalizeFor (trace : String) (out : List Char) : List Char :=
  let m1 := stripWS (pidSub out)
  let m2 :=
    if trace = "trace12" ∨ trace = "trace13" ∨ trace = "trace14" then psSub m1 else m1
  if trace = "trace15" ∨ trace = "trace16" then periodStrip m2 else m2

inductive Target
  | student
  | ref
deriving DecidableEq

/-- Result of one `subprocess.check_output` invocation of the session
driver: normal completion with the captured output, `CalledProcessError`
carrying the captured output, or `TimeoutExpired`. -/
inductive RunResult
  | ok (out : List Char)
  | err (out : List Char)
  | timeout
deriving DecidableEq

/-- The external world of one suite run: what the driver invocation returns
for each trace and target (`./tsh` is the student shell under test,
`./tshref` the reference shell). -/
structure Env where
  run : String → Target → RunResult

/-- Observable outcome of one iteration of the grading loop: the driver
invocations performed in order, the grade stored into `grades`, the printed
diagnostic lines, whether the comparator was reached, and the pair of
line lists handed to `difflib.Differ().compare` on a mismatch (the diff
rendering itself is purely presentational and not modelled). -/
structure CaseReport where
  invocations : List Target
  grade : Nat
  log : List (List Char)
  compared : Bool
  diffSrc : Option (List (List Char) × List (List Char))

def failMsg (trace : String) : List Char := ("Failed test: " ++ trace).toList

def timeoutMsg (trace : String) : List Char :=
  ("Failed test: " ++ trace ++ " (Test timed out)").toList

def matchMsg (trace : String) : List Char :=
  (trace ++ " outputs matched (2 points)").toList

def differMsg (trace : String) : List Char :=
  ("------------ ERROR: " ++ trace ++ " outputs DIFFER (0 points) ------------------------").toList

def endDifferMsg (trace : String) : List Char :=
  ("------------ end differences for " ++ trace ++ " ------------------------------------").toList

/-- One iteration of the grading loop for `trace` under environment `env`:
the try-block runs the driver on the student shell, then on the reference
shell, normalizes both captures and compares them case-insensitively; the
`except CalledProcessError` clause records 0 points and prints the failed
test name and the captured output of the call that raised, the
`except TimeoutExpired` clause records 0 points and prints a timeout
notice.  A failure of the first invocation skips the second. -/
def caseReport (env : Env) (trace : String) : CaseReport :=
  match env.run trace Target.student with
  | RunResult.err o => ⟨[Target.student], 0, [failMsg trace, o], false, none⟩
  | RunResult.timeout => ⟨[Target.student], 0, [timeoutMsg trace], false, none⟩
  | RunResult.ok so =>
    match env.run trace Target.ref with
    | RunResult.err o =>
        ⟨[Target.student, Target.ref], 0, [failMsg trace, o], false, none⟩
    | RunResult.timeout =>
        ⟨[Target.student, Target.ref], 0, [timeoutMsg trace], false, none⟩
    | RunResult.ok ro =>
      let a := normalizeFor trace so
      let b := normalizeFor trace ro
      if toLowerStr a = toLowerStr b then
        ⟨[Target.student, Target.ref], 2, [matchMsg trace], true, none⟩
      else
        ⟨[Target.student, Target.ref], 0, [differMsg trace, endDifferMsg trace], true,
          some (splitKE a, splitKE b)⟩

/-- The fixed trace list of the suite. -/
def tracefiles : List String :=
  ["trace01", "trace02", "trace03", "trace04", "trace05", "trace06",
   "trace07", "trace08", "trace09", "trace10", "trace11", "trace12",
   "trace13", "trace14", "trace15", "trace16", "trace17", "trace18",
   "trace19", "trace20"]

/-- The `grades` dictionary after the loop: exactly one entry per trace, in
suite order (each iteration assigns `grades[trace]` on every control path,
and `tracefiles` has no duplicates, so the Python dict is this association
list). -/
def grades (env : Env) : List (String × Nat) :=
  tracefiles.map (fun t => (t, (caseReport env t).grade))

/-- `sum(grades.values())`, the number printed in the final score line. -/
def totalScore (env : Env) : Nat := ((grades env).map Prod.snd).sum

def passLine (t : String) : List Char := ("[*PASSED*] (2) " ++ t).toList

def failLine (t : String) : List Char := ("[ FAILED ] (0) " ++ t).toList

/-- The final summary block: one line per trace, in suite order. -/
def summary (env : Env) : List (List Char) :=
  tracefiles.map (fun t =>
    if (caseReport env t).grade = 2 then passLine t else failLine t)

/-! Structural (fuel-indexed) mirrors of the four scanners.  They agree
with the scanners whenever the fuel is at least the input length; they only
serve to evaluate the scanners on concrete inputs inside proofs. -/

def pidSubF : Nat → List Char → List Char
  | _, [] => []
  | 0, l => l
  | fuel + 1, c :: t =>
    if c = '(' then
      match findClose t with
      | some after => pidTok ++ pidSubF fuel after
      | none => c :: pidSubF fuel t
    else c :: pidSubF fuel t

def stripWSF : Nat → List Char → List Char
  | _, [] => []
  | 0, l => l
  | fuel + 1, c :: t =>
    if isWS c then
      (if (c :: t).dropWhile isWS = [] then []
       else keepRun ((c :: t).takeWhile isWS)) ++ stripWSF fuel ((c :: t).dropWhile isWS)
    else c :: stripWSF fuel t

def periodStripF : Nat → List Char → List Char
  | _, [] => []
  | 0, l => l
  | fuel + 1, c :: t =>
    match matchPd (c :: t) with
    | some rest => periodStripF fuel rest
    | none => c :: periodStripF fuel t

def psSubF : Nat → List Char → List Char
  | _, [] => []
  | 0, l => l
  | fuel + 1, c :: t =>
    match matchPS (c :: t) with
    | some q => (psPre ++ q.1 ++ [' ']) ++ psSubF fuel q.2
    | none => c :: psSubF fuel t

theorem pidSubF_eq : ∀ (fuel : Nat) (l : List Char), l.length ≤ fuel →
    pidSubF fuel l = pidSub l := by
  intro fuel
  induction fuel with
  | zero =>
    intro l h
    rcases l with _ | ⟨c, t⟩
    · simp [pidSubF]
    · simp at h
  | succ fuel ih =>
    intro l h
    rcases l with _ | ⟨c, t⟩
    · simp [pidSubF]
    · rw [pidSubF]
      by_cases hc : c = '('
      · subst hc
        rw [if_pos rfl]
        rcases hfc : findClose t with _ | after
        · dsimp only
          rw [pidSub_open_none hfc]
          have ht : t.length ≤ fuel := by simp at h; omega
          rw [ih t ht]
        · dsimp only
          rw [pidSub_open_some hfc]
          have ha : after.length ≤ fuel := by
            have := findClose_length hfc
            simp at h
            omega
          rw [ih after ha]
      · rw [if_neg hc, pidSub_cons_ne t hc]
        have ht : t.length ≤ fuel := by simp at h; omega
        rw [ih t ht]

theorem stripWSF_eq : ∀ (fuel : Nat) (l : List Char), l.length ≤ fuel →
    stripWSF fuel l = stripWS l := by
  intro fuel
  induction fuel with
  | zero =>
    intro l h
    rcases l with _ | ⟨c, t⟩
    · simp [stripWSF]
    · simp at h
  | succ fuel ih =>
    intro l h
    rcases l with _ | ⟨c, t⟩
    · simp [stripWSF]
    · rw [stripWSF, stripWS]
      by_cases hc : isWS c
      · rw [if_pos hc, if_pos hc]
        have hd : ((c :: t).dropWhile isWS).length ≤ fuel := by
          rw [List.dropWhile_cons, if_pos hc]
          have := (List.dropWhile_suffix (l := t) isWS).sublist.length_le
          simp at h
          omega
        rw [ih _ hd]
      · rw [if_neg hc, if_neg hc]
        have ht : t.length ≤ fuel := by simp at h; omega
        rw [ih t ht]

theorem periodStripF_eq : ∀ (fuel : Nat) (l : List Char), l.length ≤ fuel →
    periodStripF fuel l = periodStrip l := by
  intro fuel
  induction fuel with
  | zero =>
    intro l h
    rcases l with _ | ⟨c, t⟩
    · simp [periodStripF]
    · simp at h
  | succ fuel ih =>
    intro l h
    rcases l with _ | ⟨c, t⟩
    · simp [periodStripF]
    · rw [periodStripF]
      rcases hm : matchPd (c :: t) with _ | rest
      · dsimp only
        rw [periodStrip_cons_none hm]
        have ht : t.length ≤ fuel := by simp at h; omega
        rw [ih t ht]
      · dsimp only
        rw [periodStrip_cons_match hm]
        have hr : rest.length ≤ fuel := by
          have := matchPd_length hm (by simp)
          simp at h this
          omega
        rw [ih rest hr]

theorem psSubF_eq : ∀ (fuel : Nat) (l : List Char), l.length ≤ fuel →
    psSubF fuel l = psSub l := by
  intro fuel
  induction fuel with
  | zero =>
    intro l h
    rcases l with _ | ⟨c, t⟩
    · simp [psSubF]
    · simp at h
  | succ fuel ih =>
    intro l h
    rcases l with _ | ⟨c, t⟩
    · simp [psSubF]
    · rw [psSubF]
      rcases hm : matchPS (c :: t) with _ | q
      · dsimp only
        rw [psSub_cons_none hm]
        have ht : t.length ≤ fuel := by simp at h; omega
        rw [ih t ht]
      · dsimp only
        rw [psSub_cons_match hm]
        have hr : q.2.length ≤ fuel := by
          have := matchPS_length hm
          simp at h this
          omega
        rw [ih q.2 hr]

/-- Structural mirror of `normalizeFor`, evaluable by the kernel. -/
def normMirror (trace : String) (out : List Char) : List Char :=
  let a := pidSubF out.length out
  let b := stripWSF a.length a
  let c :=
    if trace = "trace12" ∨ trace = "trace13" ∨ trace = "trace14" then psSubF b.length b else b
  if trace = "trace15" ∨ trace = "trace16" then periodStripF c.length c else c

theorem normMirror_eq (trace : String) (out : List Char) :
    normMirror trace out = normalizeFor trace out := by
  rw [normMirror, normalizeFor]
  rw [pidSubF_eq out.length out (le_refl _)]
  rw [stripWSF_eq _ _ (le_refl _)]
  by_cases h12 : trace = "trace12" ∨ trace = "trace13" ∨ trace = "trace14"
  · rw [if_pos h12, if_pos h12, psSubF_eq _ _ (le_refl _)]
    by_cases h15 : trace = "trace15" ∨ trace = "trace16"
    · rw [if_pos h15, if_pos h15, periodStripF_eq _ _ (le_refl _)]
    · rw [if_neg h15, if_neg h15]
  · rw [if_neg h12, if_neg h12]
    by_cases h15 : trace = "trace15" ∨ trace = "trace16"
    · rw [if_pos h15, if_pos h15, periodStripF_eq _ _ (le_refl _)]
    · rw [if_neg h15, if_neg h15]

/-! Unfolding lemmas for `caseReport`, one per control path of the loop
body. -/

theorem caseReport_err_student {env : Env} {t : String} {o : List Char}
    (h : env.run t Target.student = RunResult.err o) :
    caseReport env t = ⟨[Target.student], 0, [failMsg t, o], false, none⟩ := by
  rw [caseReport, h]

theorem caseReport_timeout_student {env : Env} {t : String}
    (h : env.run t Target.student = RunResult.timeout) :
    caseReport env t = ⟨[Target.student], 0, [timeoutMsg t], false, none⟩ := by
  rw [caseReport, h]

theorem caseReport_err_ref {env : Env} {t : String} {so o : List Char}
    (hs : env.run t Target.student = RunResult.ok so)
    (hr : env.run t Target.ref = RunResult.err o) :
    caseReport env t = ⟨[Target.student, Target.ref], 0, [failMsg t, o], false, none⟩ := by
  rw [caseReport, hs, hr]

theorem caseReport_timeout_ref {env : Env} {t : String} {so : List Char}
    (hs : env.run t Target.student = RunResult.ok so)
    (hr : env.run t Target.ref = RunResult.timeout) :
    caseReport env t = ⟨[Target.student, Target.ref], 0, [timeoutMsg t], false, none⟩ := by
  rw [caseReport, hs, hr]

theorem caseReport_ok {env : Env} {t : String} {so ro : List Char}
    (hs : env.run t Target.student = RunResult.ok so)
    (hr : env.run t Target.ref = RunResult.ok ro) :
    caseReport env t =
      if toLowerStr (normalizeFor t so) = toLowerStr (normalizeFor t ro) then
        ⟨[Target.student, Target.ref], 2, [matchMsg t], true, none⟩
      else
        ⟨[Target.student, Target.ref], 0, [differMsg t, endDifferMsg t], true,
          some (splitKE (normalizeFor t so), splitKE (normalizeFor t ro))⟩ := by
  rw [caseReport, hs, hr]

/-- Every control path of the loop body stores a grade of 0 or 2. -/
theorem grade_cases (env : Env) (t : String) :
    (caseReport env t).grade = 0 ∨ (caseReport env t).grade = 2 := by
  rcases hs : env.run t Target.student with so | o | _
  · rcases hr : env.run t Target.ref with ro | o | _
    · rw [caseReport_ok hs hr]
      by_cases hcmp : toLowerStr (normalizeFor t so) = toLowerStr (normalizeFor t ro)
      · rw [if_pos hcmp]; right; rfl
      · rw [if_neg hcmp]; left; rfl
    · rw [caseReport_err_ref hs hr]; left; rfl
    · rw [caseReport_timeout_ref hs hr]; left; rfl
  · rw [caseReport_err_student hs]; left; rfl
  · rw [caseReport_timeout_student hs]; left; rfl

theorem sum_eq_two_mul_passes : ∀ l : List (String × Nat),
    (∀ p ∈ l, p.2 = 0 ∨ p.2 = 2) →
    (l.map Prod.snd).sum = 2 * (l.filter (fun p => p.2 == 2)).length := by
  intro l
  induction l with
  | nil => intro _; rfl
  | cons a l ih =>
    intro h
    have ha := h a (List.mem_cons_self a l)
    have ih' := ih (fun p hp => h p (List.mem_cons_of_mem a hp))
    rcases ha with h0 | h2
    · rw [List.map_cons, List.sum_cons, h0, List.filter_cons]
      have hb : (a.2 == 2) = false := by rw [h0]; rfl
      rw [hb]
      simpa using ih'
    · rw [List.map_cons, List.sum_cons, h2, List.filter_cons]
      have hb : (a.2 == 2) = true := by rw [h2]; rfl
      rw [hb]
      simp only [if_true, List.length_cons]
      rw [ih']
      ring

/-- Claim C1: in every execution of the full suite, each of the 20
configured test cases is assigned exactly one grade, each grade is 0 or 2
(never partial), and the printed total equals the sum of all grades, which
equals twice the number of passing cases — hence at most 40. -/
theorem c1_suite_invariants (env : Env) :
    (grades env).map Prod.fst = tracefiles ∧
    tracefiles.Nodup ∧
    tracefiles.length = 20 ∧
    (∀ p ∈ grades env, p.2 = 0 ∨ p.2 = 2) ∧
    totalScore env = ((grades env).map Prod.snd).sum ∧
    totalScore env = 2 * ((grades env).filter (fun p => p.2 == 2)).length ∧
    totalScore env ≤ 40 := by
  have hvals : ∀ p ∈ grades env, p.2 = 0 ∨ p.2 = 2 := by
    intro p hp
    rw [grades] at hp
    obtain ⟨t, _, rfl⟩ := List.mem_map.mp hp
    exact grade_cases env t
  have hsum := sum_eq_two_mul_passes (grades env) hvals
  refine ⟨?_, by decide, by decide, hvals, rfl, hsum, ?_⟩
  · rw [grades, List.map_map]
    exact List.map_id tracefiles
  · have hlen : ((grades env).filter (fun p => p.2 == 2)).length ≤ (grades env).length :=
      List.length_filter_le _ _
    have hg : (grades env).length = 20 := by
      rw [grades, List.length_map]
      decide
    have : totalScore env = ((grades env).map Prod.snd).sum := rfl
    omega

/-- Claim C2: every per-case failure (nonzero driver exit, timeout, output
mismatch) records 0 points for that case only; the summary always carries
one entry for each of the 20 configured cases; and on a session-runner
failure 0 points are recorded without reaching the comparator, together
with the diagnostic — the failed test name plus the captured output for a
nonzero exit, or a timeout notice for a timeout. -/
theorem c2_per_case_recovery (env : Env) (t : String) (o so : List Char) :
    (summary env).length = 20 ∧
    (∀ u ∈ tracefiles,
      (if (caseReport env u).grade = 2 then passLine u else failLine u) ∈ summary env) ∧
    (env.run t Target.student = RunResult.err o →
      (caseReport env t).grade = 0 ∧ (caseReport env t).compared = false ∧
      (caseReport env t).log = [failMsg t, o]) ∧
    (env.run t Target.student = RunResult.timeout →
      (caseReport env t).grade = 0 ∧ (caseReport env t).compared = false ∧
      (caseReport env t).log = [timeoutMsg t]) ∧
    (env.run t Target.student = RunResult.ok so →
      env.run t Target.ref = RunResult.err o →
      (caseReport env t).grade = 0 ∧ (caseReport env t).compared = false ∧
      (caseReport env t).log = [failMsg t, o]) ∧
    (env.run t Target.student = RunResult.ok so →
      env.run t Target.ref = RunResult.timeout →
      (caseReport env t).grade = 0 ∧ (caseReport env t).compared = false ∧
      (caseReport env t).log = [timeoutMsg t]) := by
  refine ⟨?_, ?_, ?_, ?_, ?_, ?_⟩
  · rw [summary, List.length_map]
    decide
  · intro u hu
    rw [summary]
    exact List.mem_map.mpr ⟨u, hu, rfl⟩
  · intro h
    rw [caseReport_err_student h]
    exact ⟨rfl, rfl, rfl⟩
  · intro h
    rw [caseReport_timeout_student h]
    exact ⟨rfl, rfl, rfl⟩
  · intro hs hr
    rw [caseReport_err_ref hs hr]
    exact ⟨rfl, rfl, rfl⟩
  · intro hs hr
    rw [caseReport_timeout_ref hs hr]
    exact ⟨rfl, rfl, rfl⟩

/-- An environment in which trace01's student run raises
`CalledProcessError` and trace02's times out. -/
def envC2 : Env :=
  ⟨fun t _ =>
    if t = "trace01" then RunResult.err ("boom".toList)
    else if t = "trace02" then RunResult.timeout
    else RunResult.ok []⟩

theorem c2_per_case_recovery_witness :
    ((caseReport envC2 "trace01").grade = 0 ∧
      (caseReport envC2 "trace01").log = [failMsg "trace01", "boom".toList]) ∧
    ((caseReport envC2 "trace02").grade = 0 ∧
      (caseReport envC2 "trace02").log = [timeoutMsg "trace02"]) := by
  have h1 := (c2_per_case_recovery envC2 "trace01" ("boom".toList) []).2.2.1 rfl
  have h2 := (c2_per_case_recovery envC2 "trace02" [] []).2.2.2.1 rfl
  exact ⟨⟨h1.1, h1.2.2⟩, ⟨h2.1, h2.2.2⟩⟩

/-- An environment whose student-side invocation always times out while the
reference side would succeed. -/
def envStuck : Env :=
  ⟨fun _ tgt =>
    match tgt with
    | Target.student => RunResult.timeout
    | Target.ref => RunResult.ok []⟩

/-- Claim C5 counterexample: when the student-side invocation of trace01
times out, the grading loop raises out of the first `check_output` call and
never invokes the driver on the reference shell, so it is not the case that
every test case performs both invocations. -/
theorem c5_cex :
    (caseReport envStuck "trace01").invocations = [Target.student] ∧
    (caseReport envStuck "trace01").invocations ≠ [Target.student, Target.ref] := by
  rw [caseReport_timeout_student rfl]
  exact ⟨rfl, by decide⟩

/-- Claim C5 amended: the session runner executes both invocations — the
target under test first, then the reference — exactly when the first
invocation succeeds; in particular whenever the comparator is reached, both
invocations were performed. -/
theorem c5_amended (env : Env) (t : String) (so : List Char) :
    (env.run t Target.student = RunResult.ok so →
      (caseReport env t).invocations = [Target.student, Target.ref]) ∧
    ((caseReport env t).compared = true →
      (caseReport env t).invocations = [Target.student, Target.ref]) := by
  constructor
  · intro hs
    rcases hr : env.run t Target.ref with ro | o | _
    · rw [caseReport_ok hs hr]
      split
      · rfl
      · rfl
    · rw [caseReport_err_ref hs hr]
    · rw [caseReport_timeout_ref hs hr]
  · intro hcomp
    rcases hs : env.run t Target.student with so' | o | _
    · rcases hr : env.run t Target.ref with ro | o | _
      · rw [caseReport_ok hs hr]
        split
        · rfl
        · rfl
      · rw [caseReport_err_ref hs hr]
      · rw [caseReport_timeout_ref hs hr]
    · rw [caseReport_err_student hs] at hcomp
      cases hcomp
    · rw [caseReport_timeout_student hs] at hcomp
      cases hcomp

/-- An environment in which every invocation completes normally. -/
def envAllOk : Env := ⟨fun _ _ => RunResult.ok []⟩

theorem c5_amended_witness :
    (caseReport envAllOk "trace01").invocations = [Target.student, Target.ref] :=
  (c5_amended envAllOk "trace01" []).1 rfl

def sOut9 : List Char := "$ ls (1234)\n".toList

def rOut9 : List Char := "$ ls (5678)\n".toList

/-- An environment realizing the C9 scenario on trace01. -/
def env9 : Env :=
  ⟨fun t tgt =>
    if t = "trace01" then
      match tgt with
      | Target.student => RunResult.ok sOut9
      | Target.ref => RunResult.ok rOut9
    else RunResult.timeout⟩

/-- Claim C9 counterexample: normalization maps the raw output
`"$ ls (1234)\n"` to `"$ ls (PID)"`, not to `"$ ls (PID)\n"` as the claim
states — rule 2's `\s+$` matches the final newline at the end of the text
and removes it. -/
theorem c9_cex :
    normalizeFor "trace01" sOut9 = "$ ls (PID)".toList ∧
    normalizeFor "trace01" sOut9 ≠ "$ ls (PID)\n".toList := by
  constructor
  · rw [← normMirror_eq]
    decide
  · rw [← normMirror_eq]
    decide

/-- Claim C9 amended: for a non-special case with target output
`"$ ls (1234)\n"` and reference output `"$ ls (5678)\n"`, normalization
maps both to `"$ ls (PID)"` (the trailing newline is stripped), the
comparison succeeds, and the case is awarded 2 points. -/
theorem c9_amended :
    normalizeFor "trace01" sOut9 = "$ ls (PID)".toList ∧
    normalizeFor "trace01" rOut9 = "$ ls (PID)".toList ∧
    (caseReport env9 "trace01").grade = 2 ∧
    (caseReport env9 "trace01").log = [matchMsg "trace01"] := by
  have hs : normalizeFor "trace01" sOut9 = "$ ls (PID)".toList := by
    rw [← normMirror_eq]
    decide
  have hr : normalizeFor "trace01" rOut9 = "$ ls (PID)".toList := by
    rw [← normMirror_eq]
    decide
  have hrep := @caseReport_ok env9 "trace01" sOut9 rOut9 rfl rfl
  rw [hs, hr] at hrep
  rw [if_pos rfl] at hrep
  rw [hrep]
  exact ⟨hs, hr, rfl, rfl⟩

/-- Claim C10: when both invocations succeed, the pass/fail decision
compares the lower-cased normalized outputs, while the line lists handed to
the differ are built from the normalized outputs before case-folding. -/
theorem c10_diff_precasefold (env : Env) (t : String) (so ro : List Char)
    (hs : env.run t Target.student = RunResult.ok so)
    (hr : env.run t Target.ref = RunResult.ok ro) :
    ((caseReport env t).grade = 2 ↔
      toLowerStr (normalizeFor t so) = toLowerStr (normalizeFor t ro)) ∧
    (caseReport env t).diffSrc =
      (if toLowerStr (normalizeFor t so) = toLowerStr (normalizeFor t ro) then none
       else some (splitKE (normalizeFor t so), splitKE (normalizeFor t ro))) := by
  rw [caseReport_ok hs hr]
  by_cases hcmp : toLowerStr (normalizeFor t so) = toLowerStr (normalizeFor t ro)
  · rw [if_pos hcmp, if_pos hcmp]
    exact ⟨⟨fun _ => hcmp, fun _ => rfl⟩, rfl⟩
  · rw [if_neg hcmp, if_neg hcmp]
    refine ⟨⟨fun h => ?_, fun h => absurd h hcmp⟩, rfl⟩
    cases h

/-- An environment with a case-preserving mismatch: the student output
contains upper-case letters that survive into the diff input. -/
def env10 : Env :=
  ⟨fun _ tgt =>
    match tgt with
    | Target.student => RunResult.ok ("A\nB".toList)
    | Target.ref => RunResult.ok ("a\nC".toList)⟩

theorem c10_diff_precasefold_witness :
    (caseReport env10 "trace01").diffSrc =
      some (splitKE ("A\nB".toList), splitKE ("a\nC".toList)) := by
  have h := (c10_diff_precasefold env10 "trace01" ("A\nB".toList) ("a\nC".toList) rfl rfl).2
  have hs : normalizeFor "trace01" ("A\nB".toList) = "A\nB".toList := by
    rw [← normMirror_eq]
    decide
  have hr : normalizeFor "trace01" ("a\nC".toList) = "a\nC".toList := by
    rw [← normMirror_eq]
    decide
  rw [hs, hr] at h
  rw [h, if_neg (by decide)]

/-! Rule 1: behaviour on parenthesized groups, and identity lemmas for the
no-match cases of each rule. -/

theorem pidSub_append_no_open {u : List Char} (r : List Char) (hu : '(' ∉ u) :
    pidSub (u ++ r) = u ++ pidSub r := by
  induction u with
  | nil => rfl
  | cons c u ih =>
    have hc : c ≠ '(' := fun h => hu (by rw [h]; exact List.mem_cons_self _ _)
    rw [List.cons_append, pidSub_cons_ne _ hc,
      ih (fun h => hu (List.mem_cons_of_mem c h))]
    rfl

theorem findClose_group {a : List Char} (s : List Char) (ha : ')' ∉ a)
    (hn : '\n' ∉ a) : findClose (a ++ ')' :: s) = some s := by
  induction a with
  | nil => rw [List.nil_append, findClose, if_pos rfl]
  | cons c a ih =>
    have hc : c ≠ ')' := fun h => ha (by rw [h]; exact List.mem_cons_self _ _)
    have hcn : c ≠ '\n' := fun h => hn (by rw [h]; exact List.mem_cons_self _ _)
    rw [List.cons_append, findClose, if_neg hc, if_neg hcn,
      ih (fun h => ha (List.mem_cons_of_mem c h)) (fun h => hn (List.mem_cons_of_mem c h))]

/-- Rule 1 on one parenthesized group with a `)`-free, newline-free body:
the group becomes the token `(PID)` and scanning resumes after it. -/
theorem pidSub_group {u a : List Char} (r : List Char) (hu : '(' ∉ u)
    (ha : ')' ∉ a) (hn : '\n' ∉ a) :
    pidSub (u ++ '(' :: (a ++ ')' :: r)) = u ++ (pidTok ++ pidSub r) := by
  rw [pidSub_append_no_open _ hu, pidSub_open_some (findClose_group r ha hn)]

/-- Two texts that differ only inside newline-free parenthesized
substrings: a common skeleton of `(`-free segments interleaved with groups
`(…)` whose bodies are `)`-free and newline-free and may differ between the
two texts. -/
inductive ParenSkel : List Char → List Char → Prop
  | last (u : List Char) : '(' ∉ u → ParenSkel u u
  | seg (u a b : List Char) {s t : List Char} : '(' ∉ u →
      ')' ∉ a → '\n' ∉ a → ')' ∉ b → '\n' ∉ b → ParenSkel s t →
      ParenSkel (u ++ '(' :: (a ++ ')' :: s)) (u ++ '(' :: (b ++ ')' :: t))

theorem pidSub_parenSkel {s t : List Char} (h : ParenSkel s t) :
    pidSub s = pidSub t := by
  induction h with
  | last u hu => rfl
  | seg u a b hu ha hna hb hnb hst ih =>
    rw [pidSub_group _ hu ha hna, pidSub_group _ hu hb hnb, ih]

/-- Claim C3 counterexample: the first rule does not span newlines —
`"(a\nb)"` is left unchanged rather than becoming `"(PID)"`, and the pair
`"(q)"` / `"(a\nb)"`, which differ only inside a parenthesized substring,
have different rule-1 images. -/
theorem c3_cex :
    pidSub ("(a\nb)".toList) = "(a\nb)".toList ∧
    pidSub ("(a\nb)".toList) ≠ "(PID)".toList ∧
    pidSub ("(q)".toList) = "(PID)".toList ∧
    pidSub ("(q)".toList) ≠ pidSub ("(a\nb)".toList) := by
  have h1 : pidSub ("(a\nb)".toList) = "(a\nb)".toList := by
    rw [← pidSubF_eq 6 _ (by decide)]
    decide
  have h2 : pidSub ("(q)".toList) = "(PID)".toList := by
    rw [← pidSubF_eq 3 _ (by decide)]
    decide
  refine ⟨h1, ?_, h2, ?_⟩
  · rw [h1]
    decide
  · rw [h1, h2]
    decide

/-- Claim C3 amended: the first rule replaces every parenthesized substring
whose body reaches the next `)` without crossing a newline by the literal
token `(PID)`; consequently, texts that differ only inside such
newline-free parenthesized substrings have equal rule-1 images. -/
theorem c3_amended (u a r s t : List Char) (hu : '(' ∉ u) (ha : ')' ∉ a)
    (hna : '\n' ∉ a) (hst : ParenSkel s t) :
    pidSub (u ++ '(' :: (a ++ ')' :: r)) = u ++ (pidTok ++ pidSub r) ∧
    pidSub s = pidSub t :=
  ⟨pidSub_group r hu ha hna, pidSub_parenSkel hst⟩

theorem c3_amended_witness :
    pidSub ("x(a)y".toList) = "x".toList ++ (pidTok ++ pidSub ("y".toList)) ∧
    pidSub ("(p)z".toList) = pidSub ("(qq)z".toList) :=
  c3_amended ("x".toList) ("a".toList) ("y".toList) ("(p)z".toList) ("(qq)z".toList)
    (by decide) (by decide) (by decide)
    (ParenSkel.seg [] ("p".toList) ("qq".toList) (by decide) (by decide) (by decide)
      (by decide) (by decide) (ParenSkel.last ("z".toList) (by decide)))

theorem pidSub_id_of_no_open {l : List Char} (h : '(' ∉ l) : pidSub l = l := by
  induction l with
  | nil => simp
  | cons c t ih =>
    have hc : c ≠ '(' := fun hh => h (by rw [hh]; exact List.mem_cons_self _ _)
    rw [pidSub_cons_ne _ hc, ih (fun hh => h (List.mem_cons_of_mem c hh))]

theorem stripWS_id_of_no_ws {l : List Char} (h : ∀ c ∈ l, isWS c = false) :
    stripWS l = l := by
  induction l with
  | nil => simp
  | cons c t ih =>
    rw [stripWS_cons_nonws _ (h c (List.mem_cons_self _ _)),
      ih (fun x hx => h x (List.mem_cons_of_mem c hx))]

theorem matchPS_none_of_no_digit {l : List Char} (h : ∀ c ∈ l, c.isDigit = false) :
    matchPS l = none := by
  rcases l with _ | ⟨c0, l1⟩
  · rfl
  · rw [matchPS]
    by_cases hc0 : c0 = '\n'
    · rw [if_pos hc0]
    · rw [if_neg hc0]
      have hrun : plusRun Char.isDigit l1 = none := by
        rw [plusRun]
        have ht : l1.takeWhile Char.isDigit = [] := by
          rcases l1 with _ | ⟨d, r⟩
          · rfl
          · exact takeWhile_head_false r (h d (List.mem_cons_of_mem c0 (List.mem_cons_self _ _)))
        rw [if_pos ht]
      rw [hrun]

theorem psSub_id_of_no_digit {l : List Char} (h : ∀ c ∈ l, c.isDigit = false) :
    psSub l = l := by
  induction l with
  | nil => simp
  | cons c t ih =>
    rw [psSub_cons_none (matchPS_none_of_no_digit h),
      ih (fun x hx => h x (List.mem_cons_of_mem c hx))]

theorem matchPd_none_of {l : List Char} (hdot : ∀ c ∈ l, isDot c = false)
    (hws : ∀ c ∈ l, isWS c = false) (hne : l ≠ []) : matchPd l = none := by
  have hP : l.takeWhile isDot = [] := by
    rcases l with _ | ⟨c, t⟩
    · rfl
    · exact takeWhile_head_false t (hdot c (List.mem_cons_self _ _))
  have hd : l.dropWhile isDot = l := by
    rcases l with _ | ⟨c, t⟩
    · rfl
    · exact dropWhile_head_false t (hdot c (List.mem_cons_self _ _))
  have hW : l.takeWhile isWS = [] := by
    rcases l with _ | ⟨c, t⟩
    · rfl
    · exact takeWhile_head_false t (hws c (List.mem_cons_self _ _))
  have hd2 : l.dropWhile isWS = l := by
    rcases l with _ | ⟨c, t⟩
    · rfl
    · exact dropWhile_head_false t (hws c (List.mem_cons_self _ _))
  rw [matchPd]
  simp only [hP, hd, hW, hd2]
  rw [if_neg hne]
  rfl

theorem periodStrip_id_of {l : List Char} (hdot : ∀ c ∈ l, isDot c = false)
    (hws : ∀ c ∈ l, isWS c = false) : periodStrip l = l := by
  induction l with
  | nil => simp
  | cons c t ih =>
    rw [periodStrip_cons_none (matchPd_none_of hdot hws (by simp)),
      ih (fun x hx => hdot x (List.mem_cons_of_mem c hx))
        (fun x hx => hws x (List.mem_cons_of_mem c hx))]

/-- Claim C8: normalization is total — every rule of this embedding is a
total function on arbitrary text — and a rule whose pattern cannot match
leaves the text unchanged: rule 1 when the text has no `(`, rule 2 when it
has no whitespace, rule 3 when it has no digit, and rule 4 when it has
neither periods nor whitespace (its remaining matches are all empty, and
replacing an empty match by the empty string changes nothing). -/
theorem c8_no_match_id (l : List Char) :
    ('(' ∉ l → pidSub l = l) ∧
    ((∀ c ∈ l, isWS c = false) → stripWS l = l) ∧
    ((∀ c ∈ l, c.isDigit = false) → psSub l = l) ∧
    ((∀ c ∈ l, isDot c = false) → (∀ c ∈ l, isWS c = false) → periodStrip l = l) :=
  ⟨pidSub_id_of_no_open, stripWS_id_of_no_ws, psSub_id_of_no_digit,
    fun h1 h2 => periodStrip_id_of h1 h2⟩

theorem c8_no_match_id_witness :
    pidSub ("xyz".toList) = "xyz".toList ∧ stripWS ("xyz".toList) = "xyz".toList ∧
    psSub ("xyz".toList) = "xyz".toList ∧ periodStrip ("xyz".toList) = "xyz".toList := by
  obtain ⟨h1, h2, h3, h4⟩ := c8_no_match_id ("xyz".toList)
  exact ⟨h1 (by decide), h2 (by decide), h3 (by decide), h4 (by decide) (by decide)⟩

/-! Appending text at the very end: how each rule's output reacts.  These
lemmas drive the analysis of the trailing-period rule of trace15/16. -/

theorem findClose_none_of_no_close {t : List Char} (h : ')' ∉ t) :
    findClose t = none := by
  induction t with
  | nil => rfl
  | cons c t ih =>
    have hc : c ≠ ')' := fun hh => h (by rw [hh]; exact List.mem_cons_self _ _)
    rw [findClose, if_neg hc]
    by_cases hn : c = '\n'
    · rw [if_pos hn]
    · rw [if_neg hn]
      exact ih (fun hh => h (List.mem_cons_of_mem c hh))

theorem findClose_append_some {t a : List Char} (tail : List Char)
    (h : findClose t = some a) : findClose (t ++ tail) = some (a ++ tail) := by
  induction t with
  | nil => simp [findClose] at h
  | cons c t ih =>
    rw [findClose] at h
    rw [List.cons_append, findClose]
    by_cases hc : c = ')'
    · rw [if_pos hc] at h ⊢
      cases h
      rfl
    · rw [if_neg hc] at h ⊢
      by_cases hn : c = '\n'
      · rw [if_pos hn] at h
        cases h
      · rw [if_neg hn] at h ⊢
        exact ih h

theorem findClose_append_none {t tail : List Char} (h : findClose t = none)
    (hcl : ')' ∉ tail) : findClose (t ++ tail) = none := by
  induction t with
  | nil => exact findClose_none_of_no_close hcl
  | cons c t ih =>
    rw [findClose] at h
    rw [List.cons_append, findClose]
    by_cases hc : c = ')'
    · rw [if_pos hc] at h
      cases h
    · rw [if_neg hc] at h ⊢
      by_cases hn : c = '\n'
      · rw [if_pos hn]
      · rw [if_neg hn] at h ⊢
        exact ih h

/-- Appending parenthesis-free text does not disturb rule 1: the appended
text cannot close an unmatched `(` and is copied verbatim. -/
theorem pidSub_append_tail {tail : List Char} (hop : '(' ∉ tail)
    (hcl : ')' ∉ tail) : ∀ s : List Char, pidSub (s ++ tail) = pidSub s ++ tail := by
  have H : ∀ (n : Nat) (s : List Char), s.length ≤ n →
      pidSub (s ++ tail) = pidSub s ++ tail := by
    intro n
    induction n with
    | zero =>
      intro s h
      have hs : s = [] := List.length_eq_zero.mp (Nat.le_zero.mp h)
      subst hs
      rw [List.nil_append, pidSub_nil, List.nil_append, pidSub_id_of_no_open hop]
    | succ n ih =>
      intro s h
      rcases s with _ | ⟨c, s'⟩
      · rw [List.nil_append, pidSub_nil, List.nil_append, pidSub_id_of_no_open hop]
      · by_cases hc : c = '('
        · subst hc
          rcases hfc : findClose s' with _ | a
          · have h2 : findClose (s' ++ tail) = none := findClose_append_none hfc hcl
            rw [List.cons_append, pidSub_open_none h2, pidSub_open_none hfc,
              ih s' (by simp at h; omega)]
            rfl
          · have h2 : findClose (s' ++ tail) = some (a ++ tail) := findClose_append_some tail hfc
            rw [List.cons_append, pidSub_open_some h2, pidSub_open_some hfc,
              ih a (by have := findClose_length hfc; simp at h; omega), List.append_assoc]
        · rw [List.cons_append, pidSub_cons_ne _ hc, pidSub_cons_ne _ hc,
            ih s' (by simp at h; omega)]
          rfl
  intro s
  exact H s.length s (le_refl _)

/-- Copy of a whitespace-free prefix under rule 2. -/
theorem stripWS_nonws_prefix {P : List Char} (hP : ∀ c ∈ P, isWS c = false) :
    ∀ W : List Char, stripWS (P ++ W) = P ++ stripWS W := by
  intro W
  induction P with
  | nil => rfl
  | cons p P ih =>
    rw [List.cons_append, stripWS_cons_nonws _ (hP p (List.mem_cons_self _ _)),
      ih (fun c hc => hP c (List.mem_cons_of_mem p hc))]
    rfl

/-- A text of whitespace only is a single terminal run: rule 2 deletes it
entirely. -/
theorem stripWS_all_ws {W : List Char} (hW : ∀ c ∈ W, isWS c = true) :
    stripWS W = [] := by
  rcases W with _ | ⟨w, W'⟩
  · exact stripWS_nil
  · rw [stripWS]
    rw [if_pos (hW w (List.mem_cons_self _ _))]
    have hd : (w :: W').dropWhile isWS = [] := List.dropWhile_eq_nil_iff.mpr hW
    rw [hd, if_pos rfl, stripWS_nil]
    rfl

/-- A nonempty list all of whose elements satisfy `p` ends in an element
satisfying `p`. -/
theorem getLast_pred {p : Char → Bool} {W : List Char} (hne : W ≠ [])
    (hW : ∀ c ∈ W, p c = true) : ∃ c, W.getLast? = some c ∧ p c = true := by
  refine ⟨W.getLast hne, List.getLast?_eq_getLast_of_ne_nil hne, ?_⟩
  exact hW _ (List.getLast_mem hne)

/-- Rule 2 on `X ++ P ++ W` where `X` does not end in whitespace, `P` is
whitespace-free and `W` is whitespace: the terminal run `W` is deleted and
`P` survives, leaving `stripWS X ++ P`. -/
theorem stripWS_append_tail :
    ∀ (X : List Char), (∀ c, X.getLast? = some c → isWS c = false) →
    ∀ {P W : List Char}, (∀ c ∈ P, isWS c = false) → (∀ c ∈ W, isWS c = true) →
    stripWS (X ++ P ++ W) = stripWS X ++ P := by
  have H : ∀ (n : Nat) (X : List Char), X.length ≤ n →
      (∀ c, X.getLast? = some c → isWS c = false) →
      ∀ {P W : List Char}, (∀ c ∈ P, isWS c = false) → (∀ c ∈ W, isWS c = true) →
      stripWS (X ++ P ++ W) = stripWS X ++ P := by
    intro n
    induction n with
    | zero =>
      intro X h _ P W hP hW
      have hX : X = [] := List.length_eq_zero.mp (Nat.le_zero.mp h)
      subst hX
      rw [List.nil_append, stripWS_nil, List.nil_append,
        stripWS_nonws_prefix hP W, stripWS_all_ws hW, List.append_nil]
    | succ n ih =>
      intro X h hend P W hP hW
      rcases hXs : X with _ | ⟨c, X'⟩
      · rw [List.nil_append, stripWS_nil, List.nil_append,
          stripWS_nonws_prefix hP W, stripWS_all_ws hW, List.append_nil]
      · subst hXs
        by_cases hc : isWS c
        · -- `X` opens with a whitespace run; it cannot reach the end of `X`.
          have hrest : (c :: X').dropWhile isWS ≠ [] := by
            intro hnil
            have hall : ∀ x ∈ c :: X', isWS x = true := List.dropWhile_eq_nil_iff.mp hnil
            obtain ⟨d, hd1, hd2⟩ := getLast_pred (List.cons_ne_nil c X') hall
            rw [hend d hd1] at hd2
            cases hd2
          rcases hdr : (c :: X').dropWhile isWS with _ | ⟨d, r⟩
          · exact absurd hdr hrest
          have hdws : isWS d = false := dropWhile_head hdr
          have hsplit : (c :: X') = (c :: X').takeWhile isWS ++ (d :: r) := by
            rw [← hdr, List.takeWhile_append_dropWhile]
          have hrun_ne : (c :: X').takeWhile isWS ≠ [] := by
            rw [List.takeWhile_cons, if_pos hc]
            simp
          have hrun_ws : ∀ x ∈ (c :: X').takeWhile isWS, isWS x :=
            fun x hx => List.mem_takeWhile_imp hx
          have hlen : (d :: r).length ≤ n := by
            have hlen2 := congrArg List.length hsplit
            rcases hrw : (c :: X').takeWhile isWS with _ | ⟨e, run'⟩
            · exact absurd hrw hrun_ne
            · rw [hrw] at hlen2
              simp only [List.length_cons, List.length_append] at h hlen2 ⊢
              omega
          have hend' : ∀ x, (d :: r).getLast? = some x → isWS x = false := by
            intro x hx
            apply hend
            rw [hsplit, List.getLast?_append_of_ne_nil _ (List.cons_ne_nil d r)]
            exact hx
          have hassoc : ((c :: X').takeWhile isWS ++ (d :: r)) ++ P ++ W =
              (c :: X').takeWhile isWS ++ ((d :: r) ++ P ++ W) := by
            simp only [List.append_assoc]
          calc stripWS ((c :: X') ++ P ++ W)
              = stripWS ((c :: X').takeWhile isWS ++ ((d :: r) ++ P ++ W)) := by
                conv_lhs => rw [hsplit]
                rw [hassoc]
            _ = keepRun ((c :: X').takeWhile isWS) ++ stripWS ((d :: r) ++ P ++ W) := by
                rw [stripWS_run hrun_ne hrun_ws (Or.inr ⟨d, r ++ P ++ W, by simp, hdws⟩)]
                rw [if_neg (by simp)]
            _ = keepRun ((c :: X').takeWhile isWS) ++ (stripWS (d :: r) ++ P) := by
                rw [ih (d :: r) hlen hend' hP hW]
            _ = stripWS (c :: X') ++ P := by
                conv_rhs => rw [hsplit]
                rw [stripWS_run hrun_ne hrun_ws (Or.inr ⟨d, r, rfl, hdws⟩),
                  if_neg (List.cons_ne_nil d r), List.append_assoc]
        · -- non-whitespace head: copied on both sides.
          have hX'end : ∀ x, X'.getLast? = some x → isWS x = false := by
            intro x hx
            apply hend
            rcases X' with _ | ⟨e, X''⟩
            · simp at hx
            · rw [List.getLast?_cons_cons]
              exact hx
          have hb : isWS c = false := Bool.of_not_eq_true hc
          rw [List.cons_append, List.cons_append, stripWS_cons_nonws _ hb,
            stripWS_cons_nonws _ hb, ih X' (by simp at h; omega) hX'end hP hW]
          rfl
  intro X hend P W hP hW
  exact H X.length X (le_refl _) hend hP hW

/-- Rule 4 erases a text made of periods only (a single match up to the end
of the text). -/
theorem periodStrip_dots {P : List Char} (hP : ∀ c ∈ P, isDot c = true) :
    periodStrip P = [] := by
  rcases P with _ | ⟨p, P'⟩
  · exact periodStrip_nil
  · have hm : matchPd (p :: P') = some [] := by
      rw [matchPd]
      have h1 : (p :: P').takeWhile isDot = p :: P' := List.takeWhile_eq_self_iff.mpr hP
      have h2 : (p :: P').dropWhile isDot = [] := List.dropWhile_eq_nil_iff.mpr hP
      simp [h1, h2]
    rw [periodStrip_cons_match hm, periodStrip_nil]

/-- When the last character of `Y` is neither whitespace nor a period, the
period run and whitespace run at the head of rule 4's pattern cannot reach
the end of `Y`. -/
theorem pdDecomp_l3_ne {Y : List Char} (hY : Y ≠ [])
    (hend : ∀ c, Y.getLast? = some c → isWS c = false ∧ isDot c = false) :
    (Y.dropWhile isDot).dropWhile isWS ≠ [] := by
  intro h0
  have hallws : ∀ x ∈ Y.dropWhile isDot, isWS x = true := List.dropWhile_eq_nil_iff.mp h0
  rcases hld : Y.dropWhile isDot with _ | ⟨e, l2'⟩
  · have halld : ∀ x ∈ Y, isDot x = true := List.dropWhile_eq_nil_iff.mp hld
    obtain ⟨c, hc1, hc2⟩ := getLast_pred hY halld
    rw [(hend c hc1).2] at hc2
    cases hc2
  · have hlast : Y.getLast? = (e :: l2').getLast? := by
      conv_lhs => rw [← List.takeWhile_append_dropWhile (p := isDot) (l := Y), hld]
      exact List.getLast?_append_of_ne_nil _ (List.cons_ne_nil e l2')
    obtain ⟨c, hc1, hc2⟩ := getLast_pred (List.cons_ne_nil e l2') (by rw [← hld]; exact hallws)
    have := (hend c (by rw [hlast]; exact hc1)).1
    rw [this] at hc2
    cases hc2

/-- Appending periods to a text whose last character is neither whitespace
nor a period shifts rule 4's head match by the appended periods. -/
theorem matchPd_append_dots {Y P : List Char} (hY : Y ≠ [])
    (hend : ∀ c, Y.getLast? = some c → isWS c = false ∧ isDot c = false)
    (hP : ∀ c ∈ P, isDot c = true) :
    matchPd (Y ++ P) = (matchPd Y).map (fun rest => rest ++ P) := by
  have hl3 := pdDecomp_l3_ne hY hend
  rcases hdl3 : (Y.dropWhile isDot).dropWhile isWS with _ | ⟨d, l3'⟩
  · exact absurd hdl3 hl3
  have hd_nws : isWS d = false := dropWhile_head hdl3
  have hl2ne : Y.dropWhile isDot ≠ [] := by
    intro h0
    rw [h0] at hdl3
    simp at hdl3
  rcases hel2 : Y.dropWhile isDot with _ | ⟨e, l2'⟩
  · exact absurd hel2 hl2ne
  have he_ndot : isDot e = false := dropWhile_head hel2
  have ht1 : (Y ++ P).takeWhile isDot = Y.takeWhile isDot := by
    conv_lhs => rw [← List.takeWhile_append_dropWhile (p := isDot) (l := Y), hel2]
    rw [List.append_assoc, takeWhile_all_append _ (fun x hx => List.mem_takeWhile_imp hx),
      List.cons_append, takeWhile_head_false _ he_ndot, List.append_nil]
  have hd1 : (Y ++ P).dropWhile isDot = Y.dropWhile isDot ++ P := by
    rw [hel2]
    conv_lhs => rw [← List.takeWhile_append_dropWhile (p := isDot) (l := Y), hel2]
    rw [List.append_assoc, dropWhile_all_append _ (fun x hx => List.mem_takeWhile_imp hx),
      List.cons_append, dropWhile_head_false _ he_ndot]
  have ht2 : (Y.dropWhile isDot ++ P).takeWhile isWS = (Y.dropWhile isDot).takeWhile isWS := by
    conv_lhs =>
      rw [← List.takeWhile_append_dropWhile (p := isWS) (l := Y.dropWhile isDot), hdl3]
    rw [List.append_assoc, takeWhile_all_append _ (fun x hx => List.mem_takeWhile_imp hx),
      List.cons_append, takeWhile_head_false _ hd_nws, List.append_nil]
  have hd2 : (Y.dropWhile isDot ++ P).dropWhile isWS = (d :: l3') ++ P := by
    conv_lhs =>
      rw [← List.takeWhile_append_dropWhile (p := isWS) (l := Y.dropWhile isDot), hdl3]
    rw [List.append_assoc, dropWhile_all_append _ (fun x hx => List.mem_takeWhile_imp hx),
      List.cons_append, dropWhile_head_false _ hd_nws]
  simp only [matchPd]
  rw [ht1, hd1, ht2, hd2, hdl3]
  rw [if_neg (by simp), if_neg (by simp)]
  rcases hnl : lastNLSplit ((Y.dropWhile isDot).takeWhile isWS) with _ | ⟨w1, w2⟩
  · rfl
  · dsimp only
    by_cases hg : Y.takeWhile isDot = [] ∧ w1 = []
    · rw [if_pos hg, if_pos hg]
      rfl
    · rw [if_neg hg, if_neg hg]
      simp [List.append_assoc]

/-- Under the same end-of-text condition, a successful head match of rule 4
leaves a remainder with the same last character. -/
theorem matchPd_some_endsOk {Y rest : List Char} (hY : Y ≠ [])
    (hend : ∀ c, Y.getLast? = some c → isWS c = false ∧ isDot c = false)
    (hm : matchPd Y = some rest) :
    ∀ c, rest.getLast? = some c → isWS c = false ∧ isDot c = false := by
  have hl3 := pdDecomp_l3_ne hY hend
  rcases hdl3 : (Y.dropWhile isDot).dropWhile isWS with _ | ⟨d, l3'⟩
  · exact absurd hdl3 hl3
  have hlastY : Y.getLast? = (d :: l3').getLast? := by
    conv_lhs =>
      rw [← List.takeWhile_append_dropWhile (p := isDot) (l := Y),
        ← List.takeWhile_append_dropWhile (p := isWS) (l := Y.dropWhile isDot), hdl3]
    rw [List.getLast?_append_of_ne_nil _ (by simp), List.getLast?_append_of_ne_nil _ (by simp)]
  rw [matchPd] at hm
  rw [hdl3] at hm
  rw [if_neg (by simp)] at hm
  rcases hnl : lastNLSplit ((Y.dropWhile isDot).takeWhile isWS) with _ | ⟨w1, w2⟩
  · rw [hnl] at hm
    cases hm
  · rw [hnl] at hm
    dsimp only at hm
    by_cases hg : Y.takeWhile isDot = [] ∧ w1 = []
    · rw [if_pos hg] at hm
      cases hm
    · rw [if_neg hg] at hm
      cases hm
      intro c hc
      apply hend
      rw [hlastY]
      have hsh : ('\n' :: (w2 ++ d :: l3')).getLast? = (d :: l3').getLast? := by
        rw [show ('\n' :: (w2 ++ d :: l3')) = ('\n' :: w2) ++ (d :: l3') by simp,
          List.getLast?_append_of_ne_nil _ (by simp)]
      rw [← hsh]
      exact hc

/-- Rule 4 ignores trailing periods appended after a text whose last
character is neither whitespace nor a period. -/
theorem periodStrip_append_dots {P : List Char} (hP : ∀ c ∈ P, isDot c = true) :
    ∀ Y : List Char, (∀ c, Y.getLast? = some c → isWS c = false ∧ isDot c = false) →
    periodStrip (Y ++ P) = periodStrip Y := by
  have H : ∀ (n : Nat) (Y : List Char), Y.length ≤ n →
      (∀ c, Y.getLast? = some c → isWS c = false ∧ isDot c = false) →
      periodStrip (Y ++ P) = periodStrip Y := by
    intro n
    induction n with
    | zero =>
      intro Y h _
      have hYe : Y = [] := List.length_eq_zero.mp (Nat.le_zero.mp h)
      subst hYe
      rw [List.nil_append, periodStrip_nil, periodStrip_dots hP]
    | succ n ih =>
      intro Y h hend
      rcases hYs : Y with _ | ⟨c, Y'⟩
      · rw [List.nil_append, periodStrip_nil, periodStrip_dots hP]
      · subst hYs
        have hcorr := matchPd_append_dots (List.cons_ne_nil c Y') hend hP
        rcases hm : matchPd (c :: Y') with _ | rest
        · rw [hm] at hcorr
          have hcorr' : matchPd (c :: (Y' ++ P)) = none := by
            rw [← List.cons_append]
            simpa using hcorr
          rw [List.cons_append, periodStrip_cons_none hcorr', periodStrip_cons_none hm]
          rcases hY's : Y' with _ | ⟨c2, Y''⟩
          · rw [List.nil_append, periodStrip_nil, periodStrip_dots hP]
          · subst hY's
            have hend' : ∀ x, (c2 :: Y'').getLast? = some x → isWS x = false ∧ isDot x = false := by
              intro x hx
              apply hend
              rw [List.getLast?_cons_cons]
              exact hx
            rw [ih (c2 :: Y'') (by simp at h ⊢; omega) hend']
        · rw [hm] at hcorr
          have hcorr' : matchPd (c :: (Y' ++ P)) = some (rest ++ P) := by
            rw [← List.cons_append]
            simpa using hcorr
          rw [List.cons_append, periodStrip_cons_match hcorr', periodStrip_cons_match hm]
          have hrl : rest.length ≤ n := by
            have := matchPd_length hm (List.cons_ne_nil c Y')
            simp only [List.length_cons] at h this
            omega
          exact ih rest hrl (matchPd_some_endsOk (List.cons_ne_nil c Y') hend hm)
  intro Y hend
  exact H Y.length Y (le_refl _) hend

theorem findClose_suffix : ∀ {t a : List Char}, findClose t = some a → a <:+ t := by
  intro t
  induction t with
  | nil => intro a h; simp [findClose] at h
  | cons c t ih =>
    intro a h
    rw [findClose] at h
    by_cases hc : c = ')'
    · rw [if_pos hc] at h
      cases h
      exact List.suffix_cons c t
    · rw [if_neg hc] at h
      by_cases hn : c = '\n'
      · rw [if_pos hn] at h; cases h
      · rw [if_neg hn] at h
        exact (ih h).trans (List.suffix_cons c t)

theorem pidSub_ne_nil {c : Char} {t : List Char} : pidSub (c :: t) ≠ [] := by
  by_cases hc : c = '('
  · subst hc
    rcases hfc : findClose t with _ | a
    · rw [pidSub_open_none hfc]
      simp
    · rw [pidSub_open_some hfc]
      simp [pidTok]
  · rw [pidSub_cons_ne _ hc]
    simp

/-- Rule 1 preserves the property that the text does not end in whitespace
or a period: the last character of its output is the input's last character
or the `)` of a `(PID)` token. -/
theorem pidSub_lastNotWSDot : ∀ {s : List Char},
    (∀ c, s.getLast? = some c → isWS c = false ∧ isDot c = false) →
    ∀ c, (pidSub s).getLast? = some c → isWS c = false ∧ isDot c = false := by
  have H : ∀ (n : Nat) (s : List Char), s.length ≤ n →
      (∀ c, s.getLast? = some c → isWS c = false ∧ isDot c = false) →
      ∀ c, (pidSub s).getLast? = some c → isWS c = false ∧ isDot c = false := by
    intro n
    induction n with
    | zero =>
      intro s h hs
      have hse : s = [] := List.length_eq_zero.mp (Nat.le_zero.mp h)
      subst hse
      rw [pidSub_nil]
      exact hs
    | succ n ih =>
      intro s h hs
      rcases s with _ | ⟨c, t⟩
      · rw [pidSub_nil]
        exact hs
      · by_cases hc : c = '('
        · subst hc
          rcases hfc : findClose t with _ | a
          · rw [pidSub_open_none hfc]
            rcases t with _ | ⟨c2, t'⟩
            · rw [pidSub_nil]
              exact hs
            · intro x hx
              rw [show ('(' :: pidSub (c2 :: t')) = ['('] ++ pidSub (c2 :: t') from rfl,
                List.getLast?_append_of_ne_nil _ pidSub_ne_nil] at hx
              have htl : ∀ y, (c2 :: t').getLast? = some y →
                  isWS y = false ∧ isDot y = false := by
                intro y hy
                apply hs
                rw [List.getLast?_cons_cons]
                exact hy
              exact ih (c2 :: t') (by simp only [List.length_cons] at h ⊢; omega) htl x hx
          · rw [pidSub_open_some hfc]
            rcases a with _ | ⟨a0, a'⟩
            · rw [pidSub_nil, List.append_nil]
              intro x hx
              simp [pidTok] at hx
              subst hx
              decide
            · intro x hx
              rw [List.getLast?_append_of_ne_nil _ pidSub_ne_nil] at hx
              obtain ⟨pre, hpre⟩ := findClose_suffix hfc
              have hta : ∀ y, (a0 :: a').getLast? = some y →
                  isWS y = false ∧ isDot y = false := by
                intro y hy
                apply hs
                rw [show ('(' :: t) = ['('] ++ t from rfl,
                  List.getLast?_append_of_ne_nil _ (by rw [← hpre]; simp), ← hpre,
                  List.getLast?_append_of_ne_nil _ (List.cons_ne_nil a0 a')]
                exact hy
              have hlen : (a0 :: a').length ≤ n := by
                have := findClose_length hfc
                simp only [List.length_cons] at h this ⊢
                omega
              exact ih (a0 :: a') hlen hta x hx
        · rw [pidSub_cons_ne _ hc]
          rcases t with _ | ⟨c2, t'⟩
          · rw [pidSub_nil]
            exact hs
          · intro x hx
            rw [show (c :: pidSub (c2 :: t')) = [c] ++ pidSub (c2 :: t') from rfl,
              List.getLast?_append_of_ne_nil _ pidSub_ne_nil] at hx
            have htl : ∀ y, (c2 :: t').getLast? = some y →
                isWS y = false ∧ isDot y = false := by
              intro y hy
              apply hs
              rw [List.getLast?_cons_cons]
              exact hy
            exact ih (c2 :: t') (by simp only [List.length_cons] at h ⊢; omega) htl x hx
  intro s hs
  exact H s.length s (le_refl _) hs

/-- Rule 2 preserves the last character of a text that does not end in
whitespace (and then produces nonempty output). -/
theorem stripWS_last : ∀ (X : List Char), X ≠ [] →
    (∀ c, X.getLast? = some c → isWS c = false) →
    stripWS X ≠ [] ∧ (stripWS X).getLast? = X.getLast? := by
  have H : ∀ (n : Nat) (X : List Char), X.length ≤ n → X ≠ [] →
      (∀ c, X.getLast? = some c → isWS c = false) →
      stripWS X ≠ [] ∧ (stripWS X).getLast? = X.getLast? := by
    intro n
    induction n with
    | zero =>
      intro X h hne _
      exact absurd (List.length_eq_zero.mp (Nat.le_zero.mp h)) hne
    | succ n ih =>
      intro X h hne hend
      rcases X with _ | ⟨c, X'⟩
      · exact absurd rfl hne
      · by_cases hc : isWS c
        · have hrest : (c :: X').dropWhile isWS ≠ [] := by
            intro hnil
            have hall : ∀ x ∈ c :: X', isWS x = true := List.dropWhile_eq_nil_iff.mp hnil
            obtain ⟨d, hd1, hd2⟩ := getLast_pred (List.cons_ne_nil c X') hall
            rw [hend d hd1] at hd2
            cases hd2
          rcases hdr : (c :: X').dropWhile isWS with _ | ⟨d, r⟩
          · exact absurd hdr hrest
          have hdws : isWS d = false := dropWhile_head hdr
          have hsplit : (c :: X') = (c :: X').takeWhile isWS ++ (d :: r) := by
            rw [← hdr, List.takeWhile_append_dropWhile]
          have hrun_ne : (c :: X').takeWhile isWS ≠ [] := by
            rw [List.takeWhile_cons, if_pos hc]
            simp
          have hrun_ws : ∀ x ∈ (c :: X').takeWhile isWS, isWS x :=
            fun x hx => List.mem_takeWhile_imp hx
          have hlen : (d :: r).length ≤ n := by
            have hlen2 := congrArg List.length hsplit
            rcases hrw : (c :: X').takeWhile isWS with _ | ⟨e, run'⟩
            · exact absurd hrw hrun_ne
            · rw [hrw] at hlen2
              simp only [List.length_cons, List.length_append] at h hlen2 ⊢
              omega
          have hend' : ∀ x, (d :: r).getLast? = some x → isWS x = false := by
            intro x hx
            apply hend
            rw [hsplit, List.getLast?_append_of_ne_nil _ (List.cons_ne_nil d r)]
            exact hx
          obtain ⟨hne2, heq2⟩ := ih (d :: r) hlen (List.cons_ne_nil d r) hend'
          have hrw2 : stripWS (c :: X') =
              keepRun ((c :: X').takeWhile isWS) ++ stripWS (d :: r) := by
            conv_lhs => rw [hsplit]
            rw [stripWS_run hrun_ne hrun_ws (Or.inr ⟨d, r, rfl, hdws⟩),
              if_neg (List.cons_ne_nil d r)]
          refine ⟨?_, ?_⟩
          · rw [hrw2]
            intro hcontra
            rcases List.append_eq_nil.mp hcontra with ⟨_, h2⟩
            exact hne2 h2
          · rw [hrw2, List.getLast?_append_of_ne_nil _ hne2, heq2]
            conv_rhs => rw [hsplit]
            rw [List.getLast?_append_of_ne_nil _ (List.cons_ne_nil d r)]
        · have hb : isWS c = false := Bool.of_not_eq_true hc
          rcases X' with _ | ⟨c2, X''⟩
          · rw [stripWS_cons_nonws _ hb, stripWS_nil]
            exact ⟨by simp, rfl⟩
          · have hend' : ∀ x, (c2 :: X'').getLast? = some x → isWS x = false := by
              intro x hx
              apply hend
              rw [List.getLast?_cons_cons]
              exact hx
            obtain ⟨hne2, heq2⟩ := ih (c2 :: X'')
              (by simp only [List.length_cons] at h ⊢; omega) (List.cons_ne_nil c2 X'') hend'
            rw [stripWS_cons_nonws _ hb]
            refine ⟨by simp, ?_⟩
            rw [show (c :: stripWS (c2 :: X'')) = [c] ++ stripWS (c2 :: X'') from rfl,
              List.getLast?_append_of_ne_nil _ hne2, heq2, List.getLast?_cons_cons]
  intro X hne hend
  exact H X.length X (le_refl _) hne hend

theorem normalizeFor_12 (out : List Char) :
    normalizeFor "trace12" out = psSub (stripWS (pidSub out)) := by
  rw [normalizeFor]
  rw [if_neg (by decide), if_pos (by decide)]

theorem normalizeFor_15 (out : List Char) :
    normalizeFor "trace15" out = periodStrip (stripWS (pidSub out)) := by
  rw [normalizeFor]
  rw [if_pos (by decide), if_neg (by decide)]

theorem normalizeFor_16 (out : List Char) :
    normalizeFor "trace16" out = periodStrip (stripWS (pidSub out)) := by
  rw [normalizeFor]
  rw [if_pos (by decide), if_neg (by decide)]

theorem normalizeFor_base {trace : String}
    (h12 : ¬(trace = "trace12" ∨ trace = "trace13" ∨ trace = "trace14"))
    (h15 : ¬(trace = "trace15" ∨ trace = "trace16")) (out : List Char) :
    normalizeFor trace out = stripWS (pidSub out) := by
  rw [normalizeFor]
  rw [if_neg h15, if_neg h12]

/-- Claim C7 counterexample: `"abc. ."` is `"abc"` followed by a trailing
run consisting only of periods and whitespace, yet the trace15 pipeline
normalizes it to `"abc. "` and `"abc"` to `"abc"` — rule 4's pattern is
periods-then-whitespace, so it cannot strip the period that follows the
space, and the two normal forms differ. -/
theorem c7_cex :
    normalizeFor "trace15" ("abc. .".toList) = "abc. ".toList ∧
    normalizeFor "trace15" ("abc".toList) = "abc".toList ∧
    normalizeFor "trace15" ("abc. .".toList) ≠ normalizeFor "trace15" ("abc".toList) := by
  refine ⟨?_, ?_, ?_⟩
  · rw [← normMirror_eq]
    decide
  · rw [← normMirror_eq]
    decide
  · rw [← normMirror_eq, ← normMirror_eq]
    decide

/-- Claim C7 amended: for the prompt-termination cases trace15/trace16,
normalization strips a trailing run of periods followed by trailing
whitespace: a text `s ++ P ++ W` with `P` all periods, `W` all whitespace
and `s` empty or ending in a character that is neither a period nor
whitespace normalizes to the same text as `s` alone.  (A trailing run in
which whitespace is followed by further periods is not stripped in general;
see the counterexample.) -/
theorem c7_amended (s P W : List Char)
    (hs : ∀ c, s.getLast? = some c → isWS c = false ∧ isDot c = false)
    (hP : ∀ c ∈ P, isDot c = true) (hW : ∀ c ∈ W, isWS c = true) :
    normalizeFor "trace15" (s ++ P ++ W) = normalizeFor "trace15" s ∧
    normalizeFor "trace16" (s ++ P ++ W) = normalizeFor "trace16" s := by
  have hPdot : ∀ c ∈ P, c = '.' := by
    intro c hc
    have hd := hP c hc
    rw [isDot] at hd
    exact of_decide_eq_true hd
  have hP' : ∀ c ∈ P, isWS c = false := by
    intro c hc
    rw [hPdot c hc]
    rfl
  have hop : '(' ∉ P ++ W := by
    intro hmem
    rcases List.mem_append.mp hmem with hm | hm
    · have := hPdot '(' hm
      cases this
    · have := hW '(' hm
      cases this
  have hcl : ')' ∉ P ++ W := by
    intro hmem
    rcases List.mem_append.mp hmem with hm | hm
    · have := hPdot ')' hm
      cases this
    · have := hW ')' hm
      cases this
  have hendX : ∀ c, (pidSub s).getLast? = some c → isWS c = false :=
    fun c hc => (pidSub_lastNotWSDot hs c hc).1
  have hYend : ∀ c, (stripWS (pidSub s)).getLast? = some c →
      isWS c = false ∧ isDot c = false := by
    rcases hps : pidSub s with _ | ⟨c0, t0⟩
    · rw [stripWS_nil]
      intro c hc
      simp at hc
    · intro c hc
      obtain ⟨_, heq⟩ := stripWS_last (c0 :: t0) (List.cons_ne_nil c0 t0)
        (by rw [← hps]; exact hendX)
      apply pidSub_lastNotWSDot hs
      rw [hps, ← heq]
      exact hc
  have key : periodStrip (stripWS (pidSub (s ++ P ++ W))) =
      periodStrip (stripWS (pidSub s)) := by
    rw [List.append_assoc, pidSub_append_tail hop hcl s, ← List.append_assoc,
      stripWS_append_tail (pidSub s) hendX hP' hW]
    exact periodStrip_append_dots hP _ hYend
  rw [normalizeFor_15, normalizeFor_15, normalizeFor_16, normalizeFor_16]
  exact ⟨key, key⟩

theorem c7_amended_witness :
    normalizeFor "trace15" ("abc.. \n".toList) = normalizeFor "trace15" ("abc".toList) := by
  have h := (c7_amended ("abc".toList) ("..".toList) (" \n".toList)
    (by intro c hc; simp at hc; subst hc; decide)
    (by decide) (by decide)).1
  exact h

/-- The remainder of the specification's process-listing example line. -/
def psRem : List Char := "bash R  tty1 0:00 ps".toList

theorem pidSub_id_of_no_close {l : List Char} (h : ')' ∉ l) : pidSub l = l := by
  induction l with
  | nil => simp
  | cons c t ih =>
    have ht : ')' ∉ t := fun hh => h (List.mem_cons_of_mem c hh)
    by_cases hc : c = '('
    · subst hc
      rw [pidSub_open_none (findClose_none_of_no_close ht), ih ht]
    · rw [pidSub_cons_ne _ hc, ih ht]

/-- Rule 2 is the identity on a newline-free text that does not end in
whitespace: every whitespace run is internal and newline-free, so nothing
matches `\s+$`. -/
theorem stripWS_id_of : ∀ (X : List Char), '\n' ∉ X →
    (∀ c, X.getLast? = some c → isWS c = false) → stripWS X = X := by
  have H : ∀ (n : Nat) (X : List Char), X.length ≤ n → '\n' ∉ X →
      (∀ c, X.getLast? = some c → isWS c = false) → stripWS X = X := by
    intro n
    induction n with
    | zero =>
      intro X h _ _
      rw [List.length_eq_zero.mp (Nat.le_zero.mp h)]
      exact stripWS_nil
    | succ n ih =>
      intro X h hnl hend
      rcases X with _ | ⟨c, X'⟩
      · exact stripWS_nil
      · by_cases hc : isWS c
        · have hrest : (c :: X').dropWhile isWS ≠ [] := by
            intro hnil
            have hall : ∀ x ∈ c :: X', isWS x = true := List.dropWhile_eq_nil_iff.mp hnil
            obtain ⟨d, hd1, hd2⟩ := getLast_pred (List.cons_ne_nil c X') hall
            rw [hend d hd1] at hd2
            cases hd2
          rcases hdr : (c :: X').dropWhile isWS with _ | ⟨d, r⟩
          · exact absurd hdr hrest
          have hdws : isWS d = false := dropWhile_head hdr
          have hsplit : (c :: X') = (c :: X').takeWhile isWS ++ (d :: r) := by
            rw [← hdr, List.takeWhile_append_dropWhile]
          have hrun_ne : (c :: X').takeWhile isWS ≠ [] := by
            rw [List.takeWhile_cons, if_pos hc]
            simp
          have hrun_ws : ∀ x ∈ (c :: X').takeWhile isWS, isWS x :=
            fun x hx => List.mem_takeWhile_imp hx
          have hlen : (d :: r).length ≤ n := by
            have hlen2 := congrArg List.length hsplit
            rcases hrw : (c :: X').takeWhile isWS with _ | ⟨e, run'⟩
            · exact absurd hrw hrun_ne
            · rw [hrw] at hlen2
              simp only [List.length_cons, List.length_append] at h hlen2 ⊢
              omega
          have hnl' : '\n' ∉ (d :: r) := by
            intro hmem
            apply hnl
            rw [hsplit]
            exact List.mem_append.mpr (Or.inr hmem)
          have hend' : ∀ x, (d :: r).getLast? = some x → isWS x = false := by
            intro x hx
            apply hend
            rw [hsplit, List.getLast?_append_of_ne_nil _ (List.cons_ne_nil d r)]
            exact hx
          have hkeep : keepRun ((c :: X').takeWhile isWS) = (c :: X').takeWhile isWS := by
            rw [keepRun, if_neg]
            intro hmem
            apply hnl
            rw [hsplit]
            exact List.mem_append.mpr (Or.inl hmem)
          conv_lhs => rw [hsplit]
          rw [stripWS_run hrun_ne hrun_ws (Or.inr ⟨d, r, rfl, hdws⟩),
            if_neg (List.cons_ne_nil d r), hkeep, ih (d :: r) hlen hnl' hend', ← hsplit]
        · have hb : isWS c = false := Bool.of_not_eq_true hc
          rcases X' with _ | ⟨c2, X''⟩
          · rw [stripWS_cons_nonws _ hb, stripWS_nil]
          · have hend' : ∀ x, (c2 :: X'').getLast? = some x → isWS x = false := by
              intro x hx
              apply hend
              rw [List.getLast?_cons_cons]
              exact hx
            rw [stripWS_cons_nonws _ hb,
              ih (c2 :: X'') (by simp only [List.length_cons] at h ⊢; omega)
                (fun hmem => hnl (List.mem_cons_of_mem c hmem)) hend']
  intro X hnl hend
  exact H X.length X (le_refl _) hnl hend

/-- A greedy `+`-run that consumes exactly `u` when the continuation
starts with a character outside the class. -/
theorem plusRun_exact {p : Char → Bool} {u v : List Char} (hu : u ≠ [])
    (hup : ∀ c ∈ u, p c = true) {d : Char} {r : List Char} (hv : v = d :: r)
    (hd : p d = false) : plusRun p (u ++ v) = some v := by
  subst hv
  rw [plusRun, takeWhile_all_append _ hup, takeWhile_head_false _ hd, List.append_nil,
    if_neg hu, dropWhile_all_append _ hup, dropWhile_head_false _ hd]

theorem digit_not_ws {c : Char} (h : c.isDigit = true) : isWS c = false := by
  cases hws : isWS c
  · rfl
  · exfalso
    rw [isWS] at hws
    simp only [Bool.or_eq_true, decide_eq_true_eq] at hws
    rcases hws with ((((h1 | h1) | h1) | h1) | h1) | h1 <;>
      (subst h1; exact absurd h (by decide))

/-- Rule 3's pattern on a line of the shape of the specification's
process-listing example: one leading character, two nonempty digit fields
separated and followed by blanks, then the fixed remainder; the second
group captures the whole remainder and the match consumes the line. -/
theorem matchPS_shape {c0 : Char} {d1 sp1 d2 sp2 : List Char} (hc0 : c0 ≠ '\n')
    (hd1 : d1 ≠ []) (hd1d : ∀ c ∈ d1, c.isDigit = true)
    (hs1 : sp1 ≠ []) (hs1s : ∀ c ∈ sp1, c = ' ')
    (hd2 : d2 ≠ []) (hd2d : ∀ c ∈ d2, c.isDigit = true)
    (hs2 : sp2 ≠ []) (hs2s : ∀ c ∈ sp2, c = ' ') :
    matchPS (c0 :: (d1 ++ (sp1 ++ (d2 ++ (sp2 ++ psRem))))) = some (psRem, []) := by
  rcases sp1 with _ | ⟨a1, sp1'⟩
  · exact absurd rfl hs1
  have ha1 : a1 = ' ' := hs1s a1 (List.mem_cons_self _ _)
  subst ha1
  rcases sp2 with _ | ⟨a2, sp2'⟩
  · exact absurd rfl hs2
  have ha2 : a2 = ' ' := hs2s a2 (List.mem_cons_self _ _)
  subst ha2
  rcases d2 with _ | ⟨b2, d2'⟩
  · exact absurd rfl hd2
  have hb2 : b2.isDigit = true := hd2d b2 (List.mem_cons_self _ _)
  have h1 : plusRun Char.isDigit
      (d1 ++ ((' ' :: sp1') ++ ((b2 :: d2') ++ ((' ' :: sp2') ++ psRem)))) =
      some ((' ' :: sp1') ++ ((b2 :: d2') ++ ((' ' :: sp2') ++ psRem))) :=
    plusRun_exact hd1 hd1d rfl (by decide)
  have h2 : plusRun isWS ((' ' :: sp1') ++ ((b2 :: d2') ++ ((' ' :: sp2') ++ psRem))) =
      some ((b2 :: d2') ++ ((' ' :: sp2') ++ psRem)) :=
    plusRun_exact (List.cons_ne_nil _ _)
      (fun c hc => by rw [hs1s c hc]; rfl) rfl (digit_not_ws hb2)
  have h3 : plusRun Char.isDigit ((b2 :: d2') ++ ((' ' :: sp2') ++ psRem)) =
      some ((' ' :: sp2') ++ psRem) :=
    plusRun_exact (List.cons_ne_nil _ _)
      (fun c hc => hd2d c (by exact hc)) rfl (by decide)
  have h4 : plusRun isWS ((' ' :: sp2') ++ psRem) = some psRem :=
    plusRun_exact (List.cons_ne_nil _ _)
      (fun c hc => by rw [hs2s c hc]; rfl) (by rw [psRem]; rfl) (by decide)
  rw [matchPS]
  rw [if_neg hc0, h1]
  dsimp only
  rw [h2]
  dsimp only
  rw [h3]
  dsimp only
  rw [h4]
  dsimp only
  have h5 : matchG2 psRem = some 20 := by decide
  rw [h5]
  dsimp only
  decide

/-- Claim C6 counterexample.  First conjunct pair: on the specification's
own example line, rule 3 produces `" PID PID bash R  tty1 0:00 ps "` — the
inter-field whitespace is collapsed and a trailing space is appended after
the captured remainder, so the remainder of the line is not preserved
unchanged (the rewritten line ends in a space, not in the remainder).
Last conjunct: on a two-line process listing whose only difference is the
first numeric field of the second line, the first match's `\s+` crosses the
newline and its `.*` swallows the second line into the second group, which
is copied verbatim — so the two texts do not normalize to equal text. -/
theorem c6_cex :
    psSub (" 123   456 bash R  tty1 0:00 ps".toList) =
      " PID PID bash R  tty1 0:00 ps ".toList ∧
    (psSub (" 123   456 bash R  tty1 0:00 ps".toList)).getLast? = some ' ' ∧
    normalizeFor "trace12"
        (" 123   456 bash R  tty1 0:00 ps\n 1   456 bash R  tty1 0:00 ps".toList) ≠
      normalizeFor "trace12"
        (" 123   456 bash R  tty1 0:00 ps\n 123   456 bash R  tty1 0:00 ps".toList) := by
  have h1 : psSub (" 123   456 bash R  tty1 0:00 ps".toList) =
      " PID PID bash R  tty1 0:00 ps ".toList := by
    rw [← psSubF_eq 31 _ (by decide)]
    decide
  refine ⟨h1, ?_, ?_⟩
  · rw [h1]
    decide
  · rw [← normMirror_eq, ← normMirror_eq]
    decide

/-- Claim C6 amended: on a single-line text of the pattern's shape — one
leading blank or digit, a numeric field, blanks, a second numeric field,
blanks, then the example remainder — rule 3 rewrites the leading character,
both numeric fields and the whitespace around them to `" PID PID "`,
preserves the remainder, and appends one trailing space; the result does
not depend on the numeric fields, so two such single-line texts differing
only in the two leading numeric fields normalize to equal text. -/
theorem c6_amended (c0 : Char) (d1 sp1 d2 sp2 : List Char)
    (hc0 : c0 = ' ' ∨ c0.isDigit = true)
    (hd1 : d1 ≠ []) (hd1d : ∀ c ∈ d1, c.isDigit = true)
    (hs1 : sp1 ≠ []) (hs1s : ∀ c ∈ sp1, c = ' ')
    (hd2 : d2 ≠ []) (hd2d : ∀ c ∈ d2, c.isDigit = true)
    (hs2 : sp2 ≠ []) (hs2s : ∀ c ∈ sp2, c = ' ') :
    psSub (c0 :: (d1 ++ (sp1 ++ (d2 ++ (sp2 ++ psRem))))) = psPre ++ psRem ++ [' '] ∧
    normalizeFor "trace12" (c0 :: (d1 ++ (sp1 ++ (d2 ++ (sp2 ++ psRem))))) =
      psPre ++ psRem ++ [' '] := by
  have hc0nl : c0 ≠ '\n' := by
    rcases hc0 with h | h
    · subst h
      decide
    · intro hh
      rw [hh] at h
      exact absurd h (by decide)
  have hps := matchPS_shape hc0nl hd1 hd1d hs1 hs1s hd2 hd2d hs2 hs2s
  have hpsSub : psSub (c0 :: (d1 ++ (sp1 ++ (d2 ++ (sp2 ++ psRem))))) =
      psPre ++ psRem ++ [' '] := by
    rw [psSub_cons_match hps]
    rw [psSub_nil, List.append_nil]
  have hmem : ∀ c ∈ c0 :: (d1 ++ (sp1 ++ (d2 ++ (sp2 ++ psRem)))),
      c = ' ' ∨ c.isDigit = true ∨ c ∈ psRem := by
    intro c hc
    rcases List.mem_cons.mp hc with hh | hh
    · subst hh
      rcases hc0 with h | h
      · exact Or.inl h
      · exact Or.inr (Or.inl h)
    rcases List.mem_append.mp hh with hh | hh
    · exact Or.inr (Or.inl (hd1d c hh))
    rcases List.mem_append.mp hh with hh | hh
    · exact Or.inl (hs1s c hh)
    rcases List.mem_append.mp hh with hh | hh
    · exact Or.inr (Or.inl (hd2d c hh))
    rcases List.mem_append.mp hh with hh | hh
    · exact Or.inl (hs2s c hh)
    · exact Or.inr (Or.inr hh)
  have hnocl : ')' ∉ c0 :: (d1 ++ (sp1 ++ (d2 ++ (sp2 ++ psRem)))) := by
    intro hc
    rcases hmem ')' hc with h | h | h
    · cases h
    · exact absurd h (by decide)
    · exact absurd h (by decide)
  have hnl : '\n' ∉ c0 :: (d1 ++ (sp1 ++ (d2 ++ (sp2 ++ psRem)))) := by
    intro hc
    rcases hmem '\n' hc with h | h | h
    · cases h
    · exact absurd h (by decide)
    · exact absurd h (by decide)
  have hlast : (c0 :: (d1 ++ (sp1 ++ (d2 ++ (sp2 ++ psRem))))).getLast? = some 's' := by
    have hne0 : d1 ++ (sp1 ++ (d2 ++ (sp2 ++ psRem))) ≠ [] := by
      intro hh
      exact hd1 (List.append_eq_nil.mp hh).1
    have hne1 : sp1 ++ (d2 ++ (sp2 ++ psRem)) ≠ [] := by
      intro hh
      exact hs1 (List.append_eq_nil.mp hh).1
    have hne2 : d2 ++ (sp2 ++ psRem) ≠ [] := by
      intro hh
      exact hd2 (List.append_eq_nil.mp hh).1
    have hne3 : sp2 ++ psRem ≠ [] := by
      intro hh
      exact hs2 (List.append_eq_nil.mp hh).1
    have hne4 : psRem ≠ [] := by
      rw [psRem]
      simp
    rw [show (c0 :: (d1 ++ (sp1 ++ (d2 ++ (sp2 ++ psRem))))) =
      [c0] ++ (d1 ++ (sp1 ++ (d2 ++ (sp2 ++ psRem)))) from rfl]
    rw [List.getLast?_append_of_ne_nil _ hne0, List.getLast?_append_of_ne_nil _ hne1,
      List.getLast?_append_of_ne_nil _ hne2, List.getLast?_append_of_ne_nil _ hne3,
      List.getLast?_append_of_ne_nil _ hne4]
    rw [psRem]
    rfl
  have hend : ∀ c, (c0 :: (d1 ++ (sp1 ++ (d2 ++ (sp2 ++ psRem))))).getLast? = some c →
      isWS c = false := by
    intro c hc
    rw [hlast] at hc
    cases hc
    rfl
  refine ⟨hpsSub, ?_⟩
  rw [normalizeFor_12, pidSub_id_of_no_close hnocl, stripWS_id_of _ hnl hend]
  exact hpsSub

theorem c6_amended_witness :
    normalizeFor "trace12" (" 123   456 bash R  tty1 0:00 ps".toList) =
      normalizeFor "trace12" (" 789   101 bash R  tty1 0:00 ps".toList) := by
  have h1 := (c6_amended ' ' ("123".toList) ("   ".toList) ("456".toList) (" ".toList)
    (Or.inl rfl) (by decide) (by decide) (by decide) (by decide)
    (by decide) (by decide) (by decide) (by decide)).2
  have h2 := (c6_amended ' ' ("789".toList) ("   ".toList) ("101".toList) (" ".toList)
    (Or.inl rfl) (by decide) (by decide) (by decide) (by decide)
    (by decide) (by decide) (by decide) (by decide)).2
  exact h1.trans h2.symm

/-! Idempotence of the base pipeline (rule 1 then rule 2).  `CleanL`
characterizes the texts rule 1 maps to themselves in a way that is stable
under rule 2: a concatenation of `(PID)` tokens, unmatched `(`s (no `)`
before the next newline) and other characters. -/

theorem ws_ne_paren {c : Char} (h : isWS c = true) : c ≠ '(' ∧ c ≠ ')' := by
  constructor <;> (intro hh; subst hh; exact absurd h (by decide))

theorem findClose_skip {v w : List Char} (hv : ∀ x ∈ v, x ≠ ')' ∧ x ≠ '\n') :
    findClose (v ++ w) = findClose w := by
  induction v with
  | nil => rfl
  | cons c v ih =>
    obtain ⟨h1, h2⟩ := hv c (List.mem_cons_self _ _)
    rw [List.cons_append, findClose, if_neg h1, if_neg h2]
    exact ih (fun x hx => hv x (List.mem_cons_of_mem c hx))

theorem fromLastNL_shape : ∀ {run : List Char}, '\n' ∈ run →
    ∃ b, fromLastNL run = '\n' :: b ∧ '\n' ∉ b ∧ ∀ x ∈ b, x ∈ run := by
  intro run
  induction run with
  | nil => intro h; simp at h
  | cons c t ih =>
    intro h
    rw [fromLastNL]
    by_cases ht : '\n' ∈ t
    · rw [if_pos ht]
      obtain ⟨b, h1, h2, h3⟩ := ih ht
      exact ⟨b, h1, h2, fun x hx => List.mem_cons_of_mem c (h3 x hx)⟩
    · rw [if_neg ht]
      have hc : c = '\n' := by
        rcases List.mem_cons.mp h with h1 | h1
        · exact h1.symm
        · exact absurd h1 ht
      subst hc
      exact ⟨t, rfl, ht, fun x hx => List.mem_cons_of_mem _ hx⟩

theorem keepRun_mem {run : List Char} {x : Char} (hx : x ∈ keepRun run) : x ∈ run := by
  rw [keepRun] at hx
  by_cases hnl : '\n' ∈ run
  · rw [if_pos hnl] at hx
    obtain ⟨b, h1, _, h3⟩ := fromLastNL_shape hnl
    rw [h1] at hx
    rcases List.mem_cons.mp hx with h4 | h4
    · rw [h4]
      exact hnl
    · exact h3 x h4
  · rw [if_neg hnl] at hx
    exact hx

/-- Texts that rule 1 maps to themselves, closed under rule 2: `(PID)`
tokens, unmatched `(`s, and other characters. -/
inductive CleanL : List Char → Prop
  | nil : CleanL []
  | pid (t : List Char) : CleanL t → CleanL (pidTok ++ t)
  | opn (t : List Char) : findClose t = none → CleanL t → CleanL ('(' :: t)
  | chr (c : Char) (t : List Char) : c ≠ '(' → CleanL t → CleanL (c :: t)

theorem clean_cases {c : Char} {t : List Char} (h : CleanL (c :: t)) :
    (c ≠ '(' ∧ CleanL t) ∨
    (c = '(' ∧ ∃ u, t = 'P' :: 'I' :: 'D' :: ')' :: u ∧ CleanL u) ∨
    (c = '(' ∧ findClose t = none ∧ CleanL t) := by
  cases h with
  | pid u hu => exact Or.inr (Or.inl ⟨rfl, u, rfl, hu⟩)
  | opn t h1 h2 => exact Or.inr (Or.inr ⟨rfl, h1, h2⟩)
  | chr c t hc ht => exact Or.inl ⟨hc, ht⟩

/-- Rule 1 does not create a `)` before the first newline when the input
had none: an unmatched `(` stays unmatched after substitution. -/
theorem findClose_none_pidSub : ∀ {t : List Char}, findClose t = none →
    findClose (pidSub t) = none := by
  intro t
  induction t with
  | nil => intro h; rw [pidSub_nil]; exact h
  | cons c t ih =>
    intro h
    rw [findClose] at h
    by_cases hcp : c = ')'
    · rw [if_pos hcp] at h
      cases h
    · rw [if_neg hcp] at h
      by_cases hn : c = '\n'
      · subst hn
        rw [pidSub_cons_ne _ (by decide)]
        rw [findClose, if_neg (by decide), if_pos rfl]
      · rw [if_neg hn] at h
        by_cases hc : c = '('
        · subst hc
          rw [pidSub_open_none h]
          rw [findClose, if_neg (by decide), if_neg (by decide)]
          exact ih h
        · rw [pidSub_cons_ne _ hc]
          rw [findClose, if_neg hcp, if_neg hn]
          exact ih h

theorem clean_pidSub : ∀ s : List Char, CleanL (pidSub s) := by
  have H : ∀ (n : Nat) (s : List Char), s.length ≤ n → CleanL (pidSub s) := by
    intro n
    induction n with
    | zero =>
      intro s h
      rw [List.length_eq_zero.mp (Nat.le_zero.mp h), pidSub_nil]
      exact CleanL.nil
    | succ n ih =>
      intro s h
      rcases s with _ | ⟨c, t⟩
      · rw [pidSub_nil]
        exact CleanL.nil
      · by_cases hc : c = '('
        · subst hc
          rcases hfc : findClose t with _ | a
          · rw [pidSub_open_none hfc]
            exact CleanL.opn _ (findClose_none_pidSub hfc)
              (ih t (by simp only [List.length_cons] at h; omega))
          · rw [pidSub_open_some hfc]
            exact CleanL.pid _ (ih a (by
              have := findClose_length hfc
              simp only [List.length_cons] at h
              omega))
        · rw [pidSub_cons_ne _ hc]
          exact CleanL.chr c _ hc (ih t (by simp only [List.length_cons] at h; omega))
  intro s
  exact H s.length s (le_refl _)

theorem clean_fix : ∀ {t : List Char}, CleanL t → pidSub t = t := by
  intro t h
  induction h with
  | nil => exact pidSub_nil
  | pid u hu ih =>
    have hfc : findClose ('P' :: 'I' :: 'D' :: ')' :: u) = some u := by
      rw [findClose, if_neg (by decide), if_neg (by decide)]
      rw [findClose, if_neg (by decide), if_neg (by decide)]
      rw [findClose, if_neg (by decide), if_neg (by decide)]
      rw [findClose, if_pos rfl]
    show pidSub ('(' :: ('P' :: 'I' :: 'D' :: ')' :: u)) = pidTok ++ u
    rw [pidSub_open_some hfc, ih]
  | opn t h1 h2 ih => rw [pidSub_open_none h1, ih]
  | chr c t hc ht ih => rw [pidSub_cons_ne _ hc, ih]

theorem clean_dropWhile : ∀ {u : List Char}, CleanL u → CleanL (u.dropWhile isWS) := by
  intro u
  induction u with
  | nil => intro h; exact h
  | cons c u ih =>
    intro h
    rw [List.dropWhile_cons]
    by_cases hc : isWS c
    · rw [if_pos hc]
      rcases clean_cases h with ⟨_, ht⟩ | ⟨hcp, _⟩ | ⟨hcp, _, _⟩
      · exact ih ht
      · exact absurd hcp (ws_ne_paren hc).1
      · exact absurd hcp (ws_ne_paren hc).1
    · rw [if_neg hc]
      exact h

theorem clean_append_chrs {v w : List Char} (hv : ∀ x ∈ v, x ≠ '(') (hw : CleanL w) :
    CleanL (v ++ w) := by
  induction v with
  | nil => exact hw
  | cons c v ih =>
    exact CleanL.chr c _ (hv c (List.mem_cons_self _ _))
      (ih (fun x hx => hv x (List.mem_cons_of_mem c hx)))

/-- Rule 2 does not create a `)` before the first newline when the input
had none: it only deletes whitespace, and every non-terminal whitespace run
keeps its last newline. -/
theorem findClose_none_stripWS : ∀ (u : List Char), findClose u = none →
    findClose (stripWS u) = none := by
  have H : ∀ (n : Nat) (u : List Char), u.length ≤ n → findClose u = none →
      findClose (stripWS u) = none := by
    intro n
    induction n with
    | zero =>
      intro u h _
      rw [List.length_eq_zero.mp (Nat.le_zero.mp h), stripWS_nil]
      rfl
    | succ n ih =>
      intro u h hf
      rcases u with _ | ⟨c, u'⟩
      · rw [stripWS_nil]
        rfl
      · by_cases hws : isWS c
        · have hrun_ne : (c :: u').takeWhile isWS ≠ [] := by
            rw [List.takeWhile_cons, if_pos hws]
            simp
          have hrun_ws : ∀ x ∈ (c :: u').takeWhile isWS, isWS x :=
            fun x hx => List.mem_takeWhile_imp hx
          rcases hdr : (c :: u').dropWhile isWS with _ | ⟨d, r⟩
          · have hz : stripWS (c :: u') = [] := by
              rw [stripWS, if_pos hws, hdr, if_pos rfl, stripWS_nil, List.append_nil]
            rw [hz]
            rfl
          · have hdws : isWS d = false := dropWhile_head hdr
            have hsplit : (c :: u') = (c :: u').takeWhile isWS ++ (d :: r) := by
              rw [← hdr, List.takeWhile_append_dropWhile]
            have hrw : stripWS (c :: u') =
                keepRun ((c :: u').takeWhile isWS) ++ stripWS (d :: r) := by
              conv_lhs => rw [hsplit]
              rw [stripWS_run hrun_ne hrun_ws (Or.inr ⟨d, r, rfl, hdws⟩),
                if_neg (List.cons_ne_nil d r)]
            have hlen : (d :: r).length ≤ n := by
              have hlen2 := congrArg List.length hsplit
              rcases hrw3 : (c :: u').takeWhile isWS with _ | ⟨e, run'⟩
              · exact absurd hrw3 hrun_ne
              · rw [hrw3] at hlen2
                simp only [List.length_cons, List.length_append] at h hlen2 ⊢
                omega
            by_cases hnl : '\n' ∈ (c :: u').takeWhile isWS
            · obtain ⟨b, h1, _, _⟩ := fromLastNL_shape hnl
              rw [hrw, keepRun, if_pos hnl, h1]
              rw [List.cons_append, findClose, if_neg (by decide), if_pos rfl]
            · have hskip : ∀ x ∈ (c :: u').takeWhile isWS, x ≠ ')' ∧ x ≠ '\n' :=
                fun x hx => ⟨(ws_ne_paren (hrun_ws x hx)).2, fun hh => hnl (hh ▸ hx)⟩
              rw [hrw, keepRun, if_neg hnl, findClose_skip hskip]
              apply ih (d :: r) hlen
              have hfr : findClose (c :: u') = findClose (d :: r) := by
                conv_lhs => rw [hsplit]
                exact findClose_skip hskip
              rw [← hfr]
              exact hf
        · have hbc : isWS c = false := Bool.of_not_eq_true hws
          rw [findClose] at hf
          by_cases hcp : c = ')'
          · rw [if_pos hcp] at hf
            cases hf
          · rw [if_neg hcp] at hf
            by_cases hn : c = '\n'
            · exact absurd hbc (by rw [hn]; decide)
            · rw [if_neg hn] at hf
              rw [stripWS_cons_nonws _ hbc, findClose, if_neg hcp, if_neg hn]
              exact ih u' (by simp only [List.length_cons] at h; omega) hf
  intro u hf
  exact H u.length u (le_refl _) hf

theorem clean_stripWS : ∀ {t : List Char}, CleanL t → CleanL (stripWS t) := by
  have H : ∀ (n : Nat) (t : List Char), t.length ≤ n → CleanL t → CleanL (stripWS t) := by
    intro n
    induction n with
    | zero =>
      intro t h _
      rw [List.length_eq_zero.mp (Nat.le_zero.mp h), stripWS_nil]
      exact CleanL.nil
    | succ n ih =>
      intro t h hcl
      rcases t with _ | ⟨c, t'⟩
      · rw [stripWS_nil]
        exact CleanL.nil
      · by_cases hws : isWS c
        · have hclr : CleanL ((c :: t').dropWhile isWS) := clean_dropWhile hcl
          have hrun_ne : (c :: t').takeWhile isWS ≠ [] := by
            rw [List.takeWhile_cons, if_pos hws]
            simp
          have hrun_ws : ∀ x ∈ (c :: t').takeWhile isWS, isWS x :=
            fun x hx => List.mem_takeWhile_imp hx
          rcases hdr : (c :: t').dropWhile isWS with _ | ⟨d, r⟩
          · have hz : stripWS (c :: t') = [] := by
              rw [stripWS, if_pos hws, hdr, if_pos rfl, stripWS_nil, List.append_nil]
            rw [hz]
            exact CleanL.nil
          · have hdws : isWS d = false := dropWhile_head hdr
            have hsplit : (c :: t') = (c :: t').takeWhile isWS ++ (d :: r) := by
              rw [← hdr, List.takeWhile_append_dropWhile]
            have hrw : stripWS (c :: t') =
                keepRun ((c :: t').takeWhile isWS) ++ stripWS (d :: r) := by
              conv_lhs => rw [hsplit]
              rw [stripWS_run hrun_ne hrun_ws (Or.inr ⟨d, r, rfl, hdws⟩),
                if_neg (List.cons_ne_nil d r)]
            have hlen : (d :: r).length ≤ n := by
              have hlen2 := congrArg List.length hsplit
              rcases hrw3 : (c :: t').takeWhile isWS with _ | ⟨e, run'⟩
              · exact absurd hrw3 hrun_ne
              · rw [hrw3] at hlen2
                simp only [List.length_cons, List.length_append] at h hlen2 ⊢
                omega
            rw [hrw]
            apply clean_append_chrs
            · intro x hx
              exact (ws_ne_paren (hrun_ws x (keepRun_mem hx))).1
            · exact ih (d :: r) hlen (hdr ▸ hclr)
        · rcases clean_cases hcl with ⟨hne, ht⟩ | ⟨hcp, u, hu, hclu⟩ | ⟨hcp, hfc, ht⟩
          · rw [stripWS_cons_nonws _ (Bool.of_not_eq_true hws)]
            exact CleanL.chr c _ hne
              (ih t' (by simp only [List.length_cons] at h; omega) ht)
          · subst hcp
            subst hu
            rw [show ('(' :: 'P' :: 'I' :: 'D' :: ')' :: u) = pidTok ++ u from rfl,
              stripWS_nonws_prefix (by decide) u]
            exact CleanL.pid _
              (ih u (by simp only [List.length_cons] at h; omega) hclu)
          · subst hcp
            rw [stripWS_cons_nonws _ (Bool.of_not_eq_true hws)]
            exact CleanL.opn _ (findClose_none_stripWS t' hfc)
              (ih t' (by simp only [List.length_cons] at h; omega) ht)
  intro t hcl
  exact H t.length t (le_refl _) hcl

/-- Rule 2 is idempotent: its output has no terminal whitespace run, and
every surviving whitespace run is either newline-free or a newline followed
by newline-free whitespace, both of which it leaves alone. -/
theorem strip_idem : ∀ t : List Char, stripWS (stripWS t) = stripWS t := by
  have H : ∀ (n : Nat) (t : List Char), t.length ≤ n →
      stripWS (stripWS t) = stripWS t := by
    intro n
    induction n with
    | zero =>
      intro t h
      rw [List.length_eq_zero.mp (Nat.le_zero.mp h), stripWS_nil, stripWS_nil]
    | succ n ih =>
      intro t h
      rcases t with _ | ⟨c, t'⟩
      · rw [stripWS_nil, stripWS_nil]
      · by_cases hws : isWS c
        · have hrun_ne : (c :: t').takeWhile isWS ≠ [] := by
            rw [List.takeWhile_cons, if_pos hws]
            simp
          have hrun_ws : ∀ x ∈ (c :: t').takeWhile isWS, isWS x :=
            fun x hx => List.mem_takeWhile_imp hx
          rcases hdr : (c :: t').dropWhile isWS with _ | ⟨d, r⟩
          · have hz : stripWS (c :: t') = [] := by
              rw [stripWS, if_pos hws, hdr, if_pos rfl, stripWS_nil, List.append_nil]
            rw [hz, stripWS_nil]
          · have hdws : isWS d = false := dropWhile_head hdr
            have hsplit : (c :: t') = (c :: t').takeWhile isWS ++ (d :: r) := by
              rw [← hdr, List.takeWhile_append_dropWhile]
            have hrw : stripWS (c :: t') =
                keepRun ((c :: t').takeWhile isWS) ++ stripWS (d :: r) := by
              conv_lhs => rw [hsplit]
              rw [stripWS_run hrun_ne hrun_ws (Or.inr ⟨d, r, rfl, hdws⟩),
                if_neg (List.cons_ne_nil d r)]
            have hlenr : r.length ≤ n := by
              have hlen2 := congrArg List.length hsplit
              rcases hrw3 : (c :: t').takeWhile isWS with _ | ⟨e, run'⟩
              · exact absurd hrw3 hrun_ne
              · rw [hrw3] at hlen2
                simp only [List.length_cons, List.length_append] at h hlen2 ⊢
                omega
            have hdr2 : stripWS (d :: r) = d :: stripWS r := stripWS_cons_nonws _ hdws
            rw [hrw, hdr2]
            by_cases hnl : '\n' ∈ (c :: t').takeWhile isWS
            · obtain ⟨b, h1, h2, h3⟩ := fromLastNL_shape hnl
              rw [keepRun, if_pos hnl, h1]
              have hbw : ∀ x ∈ '\n' :: b, isWS x := by
                intro x hx
                rcases List.mem_cons.mp hx with hh | hh
                · rw [hh]
                  rfl
                · exact hrun_ws x (h3 x hh)
              rw [@stripWS_run ('\n' :: b) (d :: stripWS r) (by simp) hbw
                (Or.inr ⟨d, stripWS r, rfl, hdws⟩), if_neg (by simp)]
              rw [keepRun, if_pos (by simp), fromLastNL, if_neg h2]
              rw [stripWS_cons_nonws _ hdws, ih r hlenr]
            · rw [keepRun, if_neg hnl]
              rw [stripWS_run hrun_ne hrun_ws (Or.inr ⟨d, stripWS r, rfl, hdws⟩),
                if_neg (by simp), keepRun, if_neg hnl]
              rw [stripWS_cons_nonws _ hdws, ih r hlenr]
        · have hb : isWS c = false := Bool.of_not_eq_true hws
          rw [stripWS_cons_nonws _ hb, stripWS_cons_nonws _ hb,
            ih t' (by simp only [List.length_cons] at h; omega)]
  intro t
  exact H t.length t (le_refl _)

/-- The base pipeline (rule 1 then rule 2) is idempotent. -/
theorem base_idem (out : List Char) :
    stripWS (pidSub (stripWS (pidSub out))) = stripWS (pidSub out) := by
  rw [clean_fix (clean_stripWS (clean_pidSub out)), strip_idem]

/-- Claim C4 counterexample: the trace15 pipeline is not idempotent.  The
first pass maps `"\n."` to `"\n"` (the trailing period is a match of
`\.*\s*$` before the end of the text, while the leading newline is kept by
rule 2 because it is followed by a non-whitespace character); the second
pass deletes the now-terminal `"\n"`, giving `""`. -/
theorem c4_cex :
    normalizeFor "trace15" (normalizeFor "trace15" ("\n.".toList)) ≠
      normalizeFor "trace15" ("\n.".toList) := by
  have h1 : normalizeFor "trace15" ("\n.".toList) = "\n".toList := by
    rw [← normMirror_eq]
    decide
  rw [h1, ← normMirror_eq]
  decide

/-- Claim C4 amended: normalization is idempotent for every test case
outside the two special categories — i.e. whenever neither the
process-listing rule (trace12–trace14) nor the trailing-period rule
(trace15–trace16) applies, the pipeline of rule 1 followed by rule 2 maps
its own output to itself, for every input text.  For the special
categories idempotence fails (see the counterexample). -/
theorem c4_amended (trace : String) (out : List Char)
    (h12 : ¬(trace = "trace12" ∨ trace = "trace13" ∨ trace = "trace14"))
    (h15 : ¬(trace = "trace15" ∨ trace = "trace16")) :
    normalizeFor trace (normalizeFor trace out) = normalizeFor trace out := by
  rw [normalizeFor_base h12 h15, normalizeFor_base h12 h15, base_idem]

theorem c4_amended_witness :
    normalizeFor "trace01" (normalizeFor "trace01" ("a (12)\n\nb  ".toList)) =
      normalizeFor "trace01" ("a (12)\n\nb  ".toList) :=
  c4_amended "trace01" ("a (12)\n\nb  ".toList) (by decide) (by decide)

end Checktsh
